import Mathlib

/-!
Verification of the hybrid retrieval / ranking subsystem and the
co-occurrence knowledge graph of the spaceapss repository.

The Python sources are shallowly embedded:
* documents flowing through the retrieval pipeline
  (`packages/api/app/agent/ranker.py`, `retriever.py`) become the
  record type `Doc`, with optional fields mirroring `dict.get`
  defaults; floating point scores are modelled by `Rat`;
* Python's stable `sorted(..., reverse=True)` becomes the stable
  insertion sort `sortDesc`;
* Python `set` iteration order (used for the union of candidate ids in
  `combine_scores`) is unspecified, so it is passed explicitly as an
  `order` parameter constrained by `validOrder`;
* the networkx-backed `KnowledgeGraph` (`app/graph.py`,
  `build_knowledge_graph.py`, `services/graph_service.py`) becomes the
  state type `KG` with association-list nodes and an undirected edge
  list.
-/

namespace Spec2Proof

/-- A document record as passed around by the retrieval pipeline.
Mirrors the Python dicts: absent keys are `none`, and reads go through
`Option.getD` exactly where the source uses `doc.get(key, default)`. -/
structure Doc where
  id : Option String := none
  score : Option Rat := none
  year : Option Int := none
  adjusted_score : Option Rat := none
  title : String := ""
deriving DecidableEq

/-- Source: `max(generator, default=dflt)` over a list. -/
def listMaxD {α : Type} [LinearOrder α] (l : List α) (dflt : α) : α :=
  match l with
  | [] => dflt
  | x :: xs => xs.foldl max x

/-- Source: `min(generator, default=dflt)` over a list. -/
def listMinD {α : Type} [LinearOrder α] (l : List α) (dflt : α) : α :=
  match l with
  | [] => dflt
  | x :: xs => xs.foldl min x

theorem le_foldl_max {α : Type} [LinearOrder α] (l : List α) (b : α) :
    b ≤ l.foldl max b := by
  induction l generalizing b with
  | nil => exact le_refl b
  | cons y ys ih => exact le_trans (le_max_left b y) (ih (max b y))

theorem mem_le_foldl_max {α : Type} [LinearOrder α] {l : List α} {a : α} (b : α)
    (h : a ∈ l) : a ≤ l.foldl max b := by
  induction l generalizing b with
  | nil => cases h
  | cons y ys ih =>
    rcases List.mem_cons.mp h with rfl | h2
    · exact le_trans (le_max_right b a) (le_foldl_max ys (max b a))
    · exact ih (max b y) h2

theorem le_listMaxD {α : Type} [LinearOrder α] {l : List α} {a : α} (dflt : α)
    (h : a ∈ l) : a ≤ listMaxD l dflt := by
  cases l with
  | nil => cases h
  | cons x xs =>
    rcases List.mem_cons.mp h with rfl | h2
    · exact le_foldl_max xs a
    · exact mem_le_foldl_max x h2

theorem foldl_min_le {α : Type} [LinearOrder α] (l : List α) (b : α) :
    l.foldl min b ≤ b := by
  induction l generalizing b with
  | nil => exact le_refl b
  | cons y ys ih => exact le_trans (ih (min b y)) (min_le_left b y)

theorem foldl_min_le_mem {α : Type} [LinearOrder α] {l : List α} {a : α} (b : α)
    (h : a ∈ l) : l.foldl min b ≤ a := by
  induction l generalizing b with
  | nil => cases h
  | cons y ys ih =>
    rcases List.mem_cons.mp h with rfl | h2
    · exact le_trans (foldl_min_le ys (min b a)) (min_le_right b a)
    · exact ih (min b y) h2

theorem listMinD_le {α : Type} [LinearOrder α] {l : List α} {a : α} (dflt : α)
    (h : a ∈ l) : listMinD l dflt ≤ a := by
  cases l with
  | nil => cases h
  | cons x xs =>
    rcases List.mem_cons.mp h with rfl | h2
    · exact foldl_min_le xs a
    · exact foldl_min_le_mem x h2

theorem foldl_max_const {α : Type} [LinearOrder α] {l : List α} {c : α}
    (h : ∀ a ∈ l, a = c) : l.foldl max c = c := by
  induction l with
  | nil => rfl
  | cons y ys ih =>
    have hy : y = c := h y (List.mem_cons_self y ys)
    subst hy
    simp only [List.foldl_cons, max_self]
    exact ih (fun a ha => h a (List.mem_cons_of_mem y ha))

theorem listMaxD_const {α : Type} [LinearOrder α] {l : List α} {c : α} (dflt : α)
    (hne : l ≠ []) (h : ∀ a ∈ l, a = c) : listMaxD l dflt = c := by
  cases l with
  | nil => exact absurd rfl hne
  | cons x xs =>
    have hx : x = c := h x (List.mem_cons_self x xs)
    subst hx
    exact foldl_max_const (fun a ha => h a (List.mem_cons_of_mem x ha))

/-! ### Stable descending sort

Python's `sorted(..., key=k, reverse=True)` and `list.sort(...)` are
stable: elements with equal keys keep their original relative order.
Any stable descending-by-key sort is extensionally the same function,
so we embed it as a stable insertion sort. -/

/-- Insert `x` into a descending-sorted list, before the first element
whose key is not larger than `key x` (stability: equal keys keep the
earlier element first, since `x` comes from earlier in the input). -/
def insDesc {α : Type} (key : α → Rat) (x : α) : List α → List α
  | [] => [x]
  | y :: ys => if key y ≤ key x then x :: y :: ys else y :: insDesc key x ys

/-- Stable sort by non-increasing key. -/
def sortDesc {α : Type} (key : α → Rat) : List α → List α
  | [] => []
  | x :: xs => insDesc key x (sortDesc key xs)

/-- Sortedness predicate: keys are non-increasing along the list. -/
def SortedDescBy {α : Type} (key : α → Rat) (l : List α) : Prop :=
  l.Pairwise (fun a b => key b ≤ key a)

theorem mem_insDesc {α : Type} (key : α → Rat) (x a : α) (l : List α) :
    a ∈ insDesc key x l ↔ a = x ∨ a ∈ l := by
  induction l with
  | nil => simp [insDesc]
  | cons y ys ih =>
    by_cases h : key y ≤ key x
    · simp [insDesc, h]
    · simp [insDesc, h, ih]
      tauto

theorem insDesc_perm {α : Type} (key : α → Rat) (x : α) (l : List α) :
    List.Perm (insDesc key x l) (x :: l) := by
  induction l with
  | nil => simp [insDesc]
  | cons y ys ih =>
    by_cases h : key y ≤ key x
    · simp [insDesc, h]
    · simp only [insDesc, if_neg h]
      exact (List.Perm.cons y ih).trans (List.Perm.swap x y ys)

theorem sortDesc_perm {α : Type} (key : α → Rat) (l : List α) :
    List.Perm (sortDesc key l) l := by
  induction l with
  | nil => simp [sortDesc]
  | cons x xs ih =>
    exact (insDesc_perm key x (sortDesc key xs)).trans (List.Perm.cons x ih)

theorem insDesc_sorted {α : Type} (key : α → Rat) (x : α) (l : List α)
    (hl : SortedDescBy key l) : SortedDescBy key (insDesc key x l) := by
  induction l with
  | nil => simp [insDesc, SortedDescBy]
  | cons y ys ih =>
    rcases List.pairwise_cons.mp hl with ⟨hy, hys⟩
    by_cases h : key y ≤ key x
    · simp only [insDesc, if_pos h]
      refine List.pairwise_cons.mpr ⟨?_, hl⟩
      intro b hb
      rcases List.mem_cons.mp hb with rfl | hb2
      · exact h
      · exact le_trans (hy b hb2) h
    · simp only [insDesc, if_neg h]
      refine List.pairwise_cons.mpr ⟨?_, ih hys⟩
      intro b hb
      rcases (mem_insDesc key x b ys).mp hb with rfl | hb2
      · exact le_of_not_le h
      · exact hy b hb2

theorem sortDesc_sorted {α : Type} (key : α → Rat) (l : List α) :
    SortedDescBy key (sortDesc key l) := by
  induction l with
  | nil => simp [sortDesc, SortedDescBy]
  | cons x xs ih => exact insDesc_sorted key x (sortDesc key xs) ih

theorem insDesc_filter_key {α : Type} (key : α → Rat) (x : α) (l : List α)
    (q : Rat) (hl : SortedDescBy key l) :
    (insDesc key x l).filter (fun a => decide (key a = q)) =
      if key x = q then x :: l.filter (fun a => decide (key a = q))
      else l.filter (fun a => decide (key a = q)) := by
  induction l with
  | nil =>
    by_cases hx : key x = q <;> simp [insDesc, hx]
  | cons y ys ih =>
    rcases List.pairwise_cons.mp hl with ⟨_, hys⟩
    by_cases h : key y ≤ key x
    · rw [insDesc, if_pos h, List.filter_cons, List.filter_cons]
      by_cases hx : key x = q <;> simp [hx]
    · have hyq : key x < key y := lt_of_not_le h
      rw [insDesc, if_neg h, List.filter_cons, ih hys]
      by_cases hy : key y = q
      · have hx : ¬ key x = q := by
          intro hx
          rw [hx, hy] at hyq
          exact lt_irrefl q hyq
        simp [hx, hy, List.filter_cons]
      · by_cases hx : key x = q <;> simp [hx, hy, List.filter_cons]

theorem sortDesc_filter_key {α : Type} (key : α → Rat) (l : List α) (q : Rat) :
    (sortDesc key l).filter (fun a => decide (key a = q)) =
      l.filter (fun a => decide (key a = q)) := by
  induction l with
  | nil => simp [sortDesc]
  | cons x xs ih =>
    rw [sortDesc, insDesc_filter_key key x (sortDesc key xs) q
      (sortDesc_sorted key xs)]
    by_cases hx : key x = q
    · simp [hx, ih]
    · simp [hx, ih]

/-! ### `combine_scores` (packages/api/app/agent/ranker.py, lines 55-118)

The Python builds a dict of min-max normalized, inverted vector scores
keyed by id (later duplicates overwrite earlier ones), a dict mapping
every textual-result id to the flat placeholder `0.5`, iterates the
set-union of the two key sets, and for each id takes the first
matching document (vector list first), overwrites its `score` with the
hybrid score, and finally sorts descending by score (stable).  The
iteration order of the Python `set` is unspecified, so it enters the
embedding as the explicit `order` argument, constrained by
`validOrder`. -/

/-- Ids of a document list, as read by `doc.get("id")`. -/
def idsOf (docs : List Doc) : List (Option String) := docs.map (·.id)

/-- Source: `max((doc.get("score", 0.0) for doc in vector_docs), default=1.0)`. -/
def maxVecScore (vdocs : List Doc) : Rat :=
  listMaxD (vdocs.map (fun d => d.score.getD 0)) 1

/-- Source: `min((doc.get("score", 0.0) for doc in vector_docs), default=0.0)`. -/
def minVecScore (vdocs : List Doc) : Rat :=
  listMinD (vdocs.map (fun d => d.score.getD 0)) 0

/-- One normalization step: `1.0 - (raw - min) / (max - min)` guarded by
`max > min`, else `1.0`. -/
def normVec (minV maxV raw : Rat) : Rat :=
  if minV < maxV then 1 - (raw - minV) / (maxV - minV) else 1

/-- Last element of the list satisfying `p`, if any.  Dict writes in a
loop keep the value from the last matching element, which is what this
helper recovers. -/
def lastMatch {α : Type} (p : α → Bool) (l : List α) : Option α :=
  l.reverse.find? p

theorem lastMatch_eq_none {α : Type} (p : α → Bool) (l : List α) :
    lastMatch p l = none ↔ ∀ a ∈ l, ¬ p a = true := by
  unfold lastMatch
  rw [List.find?_eq_none]
  constructor
  · intro h a ha
    exact h a (List.mem_reverse.mpr ha)
  · intro h a ha
    exact h a (List.mem_reverse.mp ha)

theorem lastMatch_mem_sat {α : Type} (p : α → Bool) (l : List α) (b : α)
    (h : lastMatch p l = some b) : b ∈ l ∧ p b = true :=
  ⟨List.mem_reverse.mp (List.mem_of_find?_eq_some h),
    List.find?_some h⟩

/-- The `vector_scores` dict: the value stored under `i` comes from the
last document of `vector_docs` with that id (dict insertion overwrites),
`none` when no vector document has id `i`. -/
def vecScoreOpt (vdocs : List Doc) (i : Option String) : Option Rat :=
  (lastMatch (fun d => decide (d.id = i)) vdocs).map
    (fun d => normVec (minVecScore vdocs) (maxVecScore vdocs) (d.score.getD 0))

/-- Source: `vector_scores.get(doc_id, 0.0)`. -/
def vecVal (vdocs : List Doc) (i : Option String) : Rat :=
  (vecScoreOpt vdocs i).getD 0

/-- Membership of `i` among the textual-result ids. -/
def hasTextId (tdocs : List Doc) (i : Option String) : Bool :=
  tdocs.any (fun d => decide (d.id = i))

/-- Source: `text_scores.get(doc_id, 0.0)` where the dict assigns the flat
placeholder `0.5` to every id present in the textual results. -/
def txtVal (tdocs : List Doc) (i : Option String) : Rat :=
  if hasTextId tdocs i then 1/2 else 0

/-- Source: `hybrid_score = alpha * vec_score + (1 - alpha) * txt_score`. -/
def hybridScore (vdocs tdocs : List Doc) (alpha : Rat) (i : Option String) : Rat :=
  alpha * vecVal vdocs i + (1 - alpha) * txtVal tdocs i

/-- Source: `next((d for d in vector_docs if d.get("id") == doc_id), None)`,
falling back to the textual list. -/
def pickDoc (vdocs tdocs : List Doc) (i : Option String) : Option Doc :=
  match vdocs.find? (fun d => decide (d.id = i)) with
  | some d => some d
  | none => tdocs.find? (fun d => decide (d.id = i))

/-- The `combined` list before the final sort. -/
def combinedDocs (order : List (Option String)) (vdocs tdocs : List Doc)
    (alpha : Rat) : List Doc :=
  order.filterMap (fun i =>
    (pickDoc vdocs tdocs i).map
      (fun d => { d with score := some (hybridScore vdocs tdocs alpha i) }))

/-- Source: `combine_scores(vector_docs, text_docs, alpha)`;
`order` is the iteration order of the id-set union `all_ids`. -/
def combine_scores (order : List (Option String)) (vdocs tdocs : List Doc)
    (alpha : Rat) : List Doc :=
  sortDesc (fun d => d.score.getD 0) (combinedDocs order vdocs tdocs alpha)

/-- Predicate: `order` is a possible iteration order of the Python set
`set(vector_scores.keys()) | set(text_scores.keys())`: duplicate-free
and containing exactly the ids seen in either input list. -/
def validOrder (order : List (Option String)) (vdocs tdocs : List Doc) : Prop :=
  order.Nodup
    ∧ (∀ i ∈ order, i ∈ idsOf vdocs ∨ i ∈ idsOf tdocs)
    ∧ (∀ i ∈ idsOf vdocs, i ∈ order)
    ∧ (∀ i ∈ idsOf tdocs, i ∈ order)

instance (order : List (Option String)) (vdocs tdocs : List Doc) :
    Decidable (validOrder order vdocs tdocs) := by
  unfold validOrder
  infer_instance

/-- Source: `Retriever._retrieve_redis` (retriever.py lines 114-143): the whole
body sits in one `try`, so an exception from either backend (modelled
as `Except.error`) makes the query return `[]`; otherwise the two
result lists are combined with `alpha=0.7` and truncated to `top_k`. -/
def retrieveRedis (vres tres : Except Unit (List Doc))
    (order : List (Option String)) (topK : Nat) : List Doc :=
  match vres, tres with
  | .ok vdocs, .ok tdocs => (combine_scores order vdocs tdocs (7/10)).take topK
  | _, _ => []

/-! ### Facts about the pieces of `combine_scores` -/

theorem pickDoc_id {vdocs tdocs : List Doc} {i : Option String} {d : Doc}
    (h : pickDoc vdocs tdocs i = some d) : d.id = i := by
  unfold pickDoc at h
  cases hv : vdocs.find? (fun d => decide (d.id = i)) with
  | some d0 =>
    rw [hv] at h
    obtain rfl : d0 = d := by simpa using h
    have hp := List.find?_some hv
    simpa using hp
  | none =>
    rw [hv] at h
    have hp := List.find?_some h
    simpa using hp

theorem mem_idsOf {docs : List Doc} {i : Option String} :
    i ∈ idsOf docs ↔ ∃ d ∈ docs, d.id = i := by
  unfold idsOf
  simp [List.mem_map]

theorem pickDoc_eq_none_iff {vdocs tdocs : List Doc} {i : Option String} :
    pickDoc vdocs tdocs i = none ↔ i ∉ idsOf vdocs ∧ i ∉ idsOf tdocs := by
  unfold pickDoc
  cases hv : vdocs.find? (fun d => decide (d.id = i)) with
  | some d0 =>
    simp only [reduceCtorEq, false_iff, not_and]
    intro hvi
    have hp := List.find?_some hv
    have hid : d0.id = i := by simpa using hp
    exact absurd (mem_idsOf.mpr ⟨d0, List.mem_of_find?_eq_some hv, hid⟩) hvi
  | none =>
    rw [List.find?_eq_none] at hv ⊢
    constructor
    · intro ht
      refine ⟨?_, ?_⟩
      · intro hm
        obtain ⟨d, hd, hdi⟩ := mem_idsOf.mp hm
        exact hv d hd (by simp [hdi])
      · intro hm
        obtain ⟨d, hd, hdi⟩ := mem_idsOf.mp hm
        exact ht d hd (by simp [hdi])
    · intro ⟨_, ht⟩ d hd hp
      have hid : d.id = i := by simpa using hp
      exact ht (mem_idsOf.mpr ⟨d, hd, hid⟩)

theorem mem_combinedDocs_iff {order : List (Option String)} {vdocs tdocs : List Doc}
    {alpha : Rat} {d2 : Doc} :
    d2 ∈ combinedDocs order vdocs tdocs alpha ↔
      ∃ i ∈ order, ∃ d, pickDoc vdocs tdocs i = some d ∧
        d2 = { d with score := some (hybridScore vdocs tdocs alpha i) } := by
  unfold combinedDocs
  rw [List.mem_filterMap]
  constructor
  · rintro ⟨i, hi, hmap⟩
    rw [Option.map_eq_some'] at hmap
    obtain ⟨d, hd, hd2⟩ := hmap
    exact ⟨i, hi, d, hd, hd2.symm⟩
  · rintro ⟨i, hi, d, hd, hd2⟩
    exact ⟨i, hi, by rw [hd, Option.map_some', hd2]⟩

theorem combinedDocs_ids_sublist (order : List (Option String)) (vdocs tdocs : List Doc)
    (alpha : Rat) :
    List.Sublist ((combinedDocs order vdocs tdocs alpha).map (·.id)) order := by
  induction order with
  | nil => simp [combinedDocs]
  | cons i rest ih =>
    unfold combinedDocs at ih ⊢
    rw [List.filterMap_cons]
    cases hp : pickDoc vdocs tdocs i with
    | none => exact List.Sublist.cons i ih
    | some d =>
      simp only [Option.map_some', List.map_cons]
      have hid : ({ d with score := some (hybridScore vdocs tdocs alpha i) } : Doc).id = d.id :=
        rfl
      rw [hid, pickDoc_id hp]
      exact List.Sublist.cons₂ i ih

theorem vecVal_zero_of_not_mem {vdocs : List Doc} {i : Option String}
    (h : i ∉ idsOf vdocs) : vecVal vdocs i = 0 := by
  unfold vecVal vecScoreOpt
  have : lastMatch (fun d => decide (d.id = i)) vdocs = none := by
    rw [lastMatch_eq_none]
    intro d hd hp
    have hid : d.id = i := by simpa using hp
    exact h (mem_idsOf.mpr ⟨d, hd, hid⟩)
  rw [this]
  rfl

theorem normVec_bounds {minV maxV raw : Rat} (h1 : minV ≤ raw) (h2 : raw ≤ maxV) :
    0 ≤ normVec minV maxV raw ∧ normVec minV maxV raw ≤ 1 := by
  unfold normVec
  by_cases h : minV < maxV
  · rw [if_pos h]
    have hden : 0 < maxV - minV := by linarith
    have hfrac0 : 0 ≤ (raw - minV) / (maxV - minV) :=
      div_nonneg (by linarith) (le_of_lt hden)
    have hfrac1 : (raw - minV) / (maxV - minV) ≤ 1 :=
      (div_le_one hden).mpr (by linarith)
    constructor <;> linarith
  · rw [if_neg h]
    norm_num

theorem vecVal_bounds (vdocs : List Doc) (i : Option String) :
    0 ≤ vecVal vdocs i ∧ vecVal vdocs i ≤ 1 := by
  unfold vecVal vecScoreOpt
  cases hl : lastMatch (fun d => decide (d.id = i)) vdocs with
  | none => norm_num
  | some d =>
    obtain ⟨hmem, _⟩ := lastMatch_mem_sat _ _ _ hl
    have hraw : d.score.getD 0 ∈ vdocs.map (fun d => d.score.getD 0) :=
      List.mem_map_of_mem _ hmem
    have h1 : minVecScore vdocs ≤ d.score.getD 0 := listMinD_le 0 hraw
    have h2 : d.score.getD 0 ≤ maxVecScore vdocs := le_listMaxD 1 hraw
    simpa using normVec_bounds h1 h2

theorem vecVal_degenerate {vdocs : List Doc} (h : minVecScore vdocs = maxVecScore vdocs)
    {i : Option String} (hi : i ∈ idsOf vdocs) : vecVal vdocs i = 1 := by
  unfold vecVal vecScoreOpt
  cases hl : lastMatch (fun d => decide (d.id = i)) vdocs with
  | none =>
    obtain ⟨d, hd, hdi⟩ := mem_idsOf.mp hi
    exact absurd (lastMatch_eq_none _ _ |>.mp hl d hd (by simp [hdi])) (by simp)
  | some d =>
    have : ¬ minVecScore vdocs < maxVecScore vdocs := by rw [h]; exact lt_irrefl _
    simp [normVec, this]

theorem hasTextId_iff {tdocs : List Doc} {i : Option String} :
    hasTextId tdocs i = true ↔ i ∈ idsOf tdocs := by
  unfold hasTextId
  rw [List.any_eq_true]
  constructor
  · rintro ⟨d, hd, hp⟩
    have hid : d.id = i := by simpa using hp
    exact mem_idsOf.mpr ⟨d, hd, hid⟩
  · intro hm
    obtain ⟨d, hd, hdi⟩ := mem_idsOf.mp hm
    exact ⟨d, hd, by simp [hdi]⟩

theorem txtVal_zero_of_not_mem {tdocs : List Doc} {i : Option String}
    (h : i ∉ idsOf tdocs) : txtVal tdocs i = 0 := by
  unfold txtVal
  rw [if_neg (fun hc => h (hasTextId_iff.mp hc))]

theorem txtVal_bounds (tdocs : List Doc) (i : Option String) :
    0 ≤ txtVal tdocs i ∧ txtVal tdocs i ≤ 1 := by
  unfold txtVal
  by_cases h : hasTextId tdocs i
  · rw [if_pos h]
    norm_num
  · rw [if_neg h]
    norm_num

theorem hybridScore_bounds (vdocs tdocs : List Doc) {alpha : Rat} (i : Option String)
    (h0 : 0 ≤ alpha) (h1 : alpha ≤ 1) :
    0 ≤ hybridScore vdocs tdocs alpha i ∧ hybridScore vdocs tdocs alpha i ≤ 1 := by
  obtain ⟨hv0, hv1⟩ := vecVal_bounds vdocs i
  obtain ⟨ht0, ht1⟩ := txtVal_bounds tdocs i
  unfold hybridScore
  constructor
  · have := mul_nonneg h0 hv0
    have := mul_nonneg (by linarith : (0:Rat) ≤ 1 - alpha) ht0
    linarith
  · have h2 : alpha * vecVal vdocs i ≤ alpha * 1 :=
      mul_le_mul_of_nonneg_left hv1 h0
    have h3 : (1 - alpha) * txtVal tdocs i ≤ (1 - alpha) * 1 :=
      mul_le_mul_of_nonneg_left ht1 (by linarith)
    linarith

/-- C1: `combine_scores` covers exactly the union of the ids of the two
result lists; each emitted candidate's score is
`alpha * vecVal + (1 - alpha) * txtVal` where the component of a list
the id is missing from is `0`; in the degenerate batch (min == max) the
normalized vector score is `1`; and for `0 ≤ alpha ≤ 1` (such as the
default `0.7`) every hybrid score lies in `[0, 1]` (no
division-by-zero: the normalization is guarded by `max > min`). -/
theorem combine_scores_hybrid_spec (order : List (Option String))
    (vdocs tdocs : List Doc) (alpha : Rat)
    (hord : validOrder order vdocs tdocs) (h0 : 0 ≤ alpha) (h1 : alpha ≤ 1) :
    (∀ i, (∃ d2 ∈ combine_scores order vdocs tdocs alpha, d2.id = i) ↔
        (i ∈ idsOf vdocs ∨ i ∈ idsOf tdocs))
    ∧ (∀ d2 ∈ combine_scores order vdocs tdocs alpha,
        d2.score = some (hybridScore vdocs tdocs alpha d2.id))
    ∧ (∀ i, i ∉ idsOf vdocs → vecVal vdocs i = 0)
    ∧ (∀ i, i ∉ idsOf tdocs → txtVal tdocs i = 0)
    ∧ (minVecScore vdocs = maxVecScore vdocs →
        ∀ i ∈ idsOf vdocs, vecVal vdocs i = 1)
    ∧ (∀ d2 ∈ combine_scores order vdocs tdocs alpha,
        ∃ s, d2.score = some s ∧ 0 ≤ s ∧ s ≤ 1) := by
  obtain ⟨hnd, hcov, hvin, htin⟩ := hord
  have hmem : ∀ d2, d2 ∈ combine_scores order vdocs tdocs alpha ↔
      d2 ∈ combinedDocs order vdocs tdocs alpha := by
    intro d2
    exact (sortDesc_perm _ _).mem_iff
  have hscore : ∀ d2 ∈ combine_scores order vdocs tdocs alpha,
      d2.score = some (hybridScore vdocs tdocs alpha d2.id) := by
    intro d2 hd2
    obtain ⟨i, _, d, hp, rfl⟩ := mem_combinedDocs_iff.mp ((hmem d2).mp hd2)
    have hid : ({ d with score := some (hybridScore vdocs tdocs alpha i) } : Doc).id = i := by
      have : ({ d with score := some (hybridScore vdocs tdocs alpha i) } : Doc).id = d.id := rfl
      rw [this, pickDoc_id hp]
    rw [hid]
  refine ⟨?_, hscore, fun i h => vecVal_zero_of_not_mem h,
    fun i h => txtVal_zero_of_not_mem h,
    fun h i hi => vecVal_degenerate h hi, ?_⟩
  · intro i
    constructor
    · rintro ⟨d2, hd2, rfl⟩
      obtain ⟨j, hj, d, hp, rfl⟩ := mem_combinedDocs_iff.mp ((hmem _).mp hd2)
      have hid : ({ d with score := some (hybridScore vdocs tdocs alpha j) } : Doc).id = d.id :=
        rfl
      rw [hid, pickDoc_id hp]
      exact hcov j hj
    · intro hi
      have hio : i ∈ order := by
        rcases hi with h | h
        · exact hvin i h
        · exact htin i h
      cases hp : pickDoc vdocs tdocs i with
      | none =>
        obtain ⟨hnv, hnt⟩ := pickDoc_eq_none_iff.mp hp
        rcases hi with h | h
        · exact absurd h hnv
        · exact absurd h hnt
      | some d =>
        refine ⟨{ d with score := some (hybridScore vdocs tdocs alpha i) },
          (hmem _).mpr (mem_combinedDocs_iff.mpr ⟨i, hio, d, hp, rfl⟩), ?_⟩
        have hid : ({ d with score := some (hybridScore vdocs tdocs alpha i) } : Doc).id = d.id :=
          rfl
        rw [hid, pickDoc_id hp]
  · intro d2 hd2
    refine ⟨hybridScore vdocs tdocs alpha d2.id, hscore d2 hd2, ?_, ?_⟩
    · exact (hybridScore_bounds vdocs tdocs d2.id h0 h1).1
    · exact (hybridScore_bounds vdocs tdocs d2.id h0 h1).2

/-- C2 (amended): every networked-tier answer is sorted by
non-increasing hybrid score, has pairwise-distinct ids, and is at most
`topK` long.  (The tie order follows the iteration order of the
Python id set, not the vector-result position; see the
counterexample.) -/
theorem retrieveRedis_sorted_nodup_topK (vdocs tdocs : List Doc)
    (order : List (Option String)) (topK : Nat)
    (hord : validOrder order vdocs tdocs) :
    SortedDescBy (fun d => d.score.getD 0)
        (retrieveRedis (.ok vdocs) (.ok tdocs) order topK)
    ∧ ((retrieveRedis (.ok vdocs) (.ok tdocs) order topK).map (·.id)).Nodup
    ∧ (retrieveRedis (.ok vdocs) (.ok tdocs) order topK).length ≤ topK := by
  obtain ⟨hnd, _, _, _⟩ := hord
  have hred : retrieveRedis (.ok vdocs) (.ok tdocs) order topK =
      (combine_scores order vdocs tdocs (7/10)).take topK := rfl
  refine ⟨?_, ?_, ?_⟩
  · rw [hred]
    have hs : SortedDescBy (fun d => d.score.getD 0)
        (combine_scores order vdocs tdocs (7/10)) :=
      sortDesc_sorted (fun d => d.score.getD 0) (combinedDocs order vdocs tdocs (7/10))
    exact List.Pairwise.sublist (List.take_sublist _ _) hs
  · rw [hred]
    have h1 : ((combinedDocs order vdocs tdocs (7/10)).map (·.id)).Nodup :=
      (combinedDocs_ids_sublist order vdocs tdocs (7/10)).nodup hnd
    have h2 : ((combine_scores order vdocs tdocs (7/10)).map (·.id)).Nodup := by
      have hperm := (sortDesc_perm (fun d => d.score.getD 0)
        (combinedDocs order vdocs tdocs (7/10))).map (·.id)
      exact hperm.nodup_iff.mpr h1
    rw [List.map_take]
    exact List.Nodup.sublist (List.take_sublist _ _) h2
  · rw [hred]
    exact List.length_take_le _ _

/-- C3 (amended): inside the networked tier the whole query body sits
in one `try`/`except`, so an exception raised while querying either
backend makes that query return the empty list; there is no
per-backend isolation within the tier. -/
theorem retrieveRedis_error_empty (order : List (Option String)) (topK : Nat) :
    (∀ tres, retrieveRedis (.error ()) tres order topK = [])
    ∧ (∀ vres, retrieveRedis vres (.error ()) order topK = []) := by
  constructor
  · intro tres
    cases tres <;> rfl
  · intro vres
    cases vres <;> rfl

/-! ### Concrete inputs for witnesses and counterexamples -/

/-- Two tied vector results (equal raw score `0`), ids `"a"`, `"b"`. -/
def vecDocA : Doc := { id := some "a", score := some 0 }

def vecDocB : Doc := { id := some "b", score := some 0 }

/-- A lone textual result. -/
def txtDocT : Doc := { id := some "t", score := some 1 }

/-- Vector results with distinct raw scores, for the C1 witness. -/
def vecDocLo : Doc := { id := some "v1", score := some (1/5) }

def vecDocHi : Doc := { id := some "v2", score := some (4/5) }

/-- C1 witness: the hybrid-score specification instantiated on a
concrete query with two vector results and one textual result, at the
default weight `alpha = 0.7`. -/
theorem combine_scores_hybrid_spec_witness :
    validOrder [some "v1", some "v2", some "t"] [vecDocLo, vecDocHi] [txtDocT]
    ∧ (0 : Rat) ≤ 7/10 ∧ (7 : Rat)/10 ≤ 1
    ∧ ((∀ i, (∃ d2 ∈ combine_scores [some "v1", some "v2", some "t"]
            [vecDocLo, vecDocHi] [txtDocT] (7/10), d2.id = i) ↔
          (i ∈ idsOf [vecDocLo, vecDocHi] ∨ i ∈ idsOf [txtDocT]))
      ∧ (∀ d2 ∈ combine_scores [some "v1", some "v2", some "t"]
            [vecDocLo, vecDocHi] [txtDocT] (7/10),
          d2.score = some (hybridScore [vecDocLo, vecDocHi] [txtDocT] (7/10) d2.id))
      ∧ (∀ i, i ∉ idsOf [vecDocLo, vecDocHi] → vecVal [vecDocLo, vecDocHi] i = 0)
      ∧ (∀ i, i ∉ idsOf [txtDocT] → txtVal [txtDocT] i = 0)
      ∧ (minVecScore [vecDocLo, vecDocHi] = maxVecScore [vecDocLo, vecDocHi] →
          ∀ i ∈ idsOf [vecDocLo, vecDocHi], vecVal [vecDocLo, vecDocHi] i = 1)
      ∧ (∀ d2 ∈ combine_scores [some "v1", some "v2", some "t"]
            [vecDocLo, vecDocHi] [txtDocT] (7/10),
          ∃ s, d2.score = some s ∧ 0 ≤ s ∧ s ≤ 1)) :=
  ⟨by decide, by norm_num, by norm_num,
    combine_scores_hybrid_spec [some "v1", some "v2", some "t"]
      [vecDocLo, vecDocHi] [txtDocT] (7/10) (by decide) (by norm_num) (by norm_num)⟩

/-- C2 witness: the amended sorted/duplicate-free/truncated guarantees
on a concrete networked-tier query. -/
theorem retrieveRedis_sorted_nodup_topK_witness :
    validOrder [some "v1", some "v2", some "t"] [vecDocLo, vecDocHi] [txtDocT]
    ∧ (SortedDescBy (fun d => d.score.getD 0)
          (retrieveRedis (.ok [vecDocLo, vecDocHi]) (.ok [txtDocT])
            [some "v1", some "v2", some "t"] 2)
      ∧ ((retrieveRedis (.ok [vecDocLo, vecDocHi]) (.ok [txtDocT])
            [some "v1", some "v2", some "t"] 2).map (·.id)).Nodup
      ∧ (retrieveRedis (.ok [vecDocLo, vecDocHi]) (.ok [txtDocT])
            [some "v1", some "v2", some "t"] 2).length ≤ 2) :=
  ⟨by decide,
    retrieveRedis_sorted_nodup_topK [vecDocLo, vecDocHi] [txtDocT]
      [some "v1", some "v2", some "t"] 2 (by decide)⟩

/-- C2 counterexample: with the two vector results tied (the batch is
degenerate, both hybrid scores are `0.7`), the set-iteration order
`[some "b", some "a"]` is a legitimate iteration order of
`all_ids`, yet the output lists `"b"` before `"a"` while the
vector-search result lists `"a"` (position 0) before `"b"`
(position 1): ties are not broken by vector-result position. -/
theorem retrieveRedis_tie_order_counterexample :
    validOrder [some "b", some "a"] [vecDocA, vecDocB] []
    ∧ idsOf [vecDocA, vecDocB] = [some "a", some "b"]
    ∧ (retrieveRedis (.ok [vecDocA, vecDocB]) (.ok []) [some "b", some "a"] 5).map
        (·.id) = [some "b", some "a"]
    ∧ (retrieveRedis (.ok [vecDocA, vecDocB]) (.ok []) [some "b", some "a"] 5).map
        (·.score) = [some (7/10), some (7/10)] := by
  refine ⟨by decide, by decide, ?_, ?_⟩ <;>
    simp [retrieveRedis, combine_scores, combinedDocs, pickDoc, hybridScore,
      vecVal, vecScoreOpt, txtVal, hasTextId, normVec, minVecScore, maxVecScore,
      listMinD, listMaxD, sortDesc, insDesc, idsOf, vecDocA, vecDocB, lastMatch,
      List.filterMap_cons, List.find?_cons]

/-- C3 counterexample: a failing vector backend with a healthy keyword
backend returns the empty list, whereas treating the failure as "zero
results from that backend only" (an empty vector result list) would
have returned the keyword candidate. -/
theorem retrieveRedis_backend_error_counterexample :
    retrieveRedis (.error ()) (.ok [txtDocT]) [some "t"] 5 = []
    ∧ retrieveRedis (.ok []) (.ok [txtDocT]) [some "t"] 5 ≠ [] := by
  refine ⟨rfl, ?_⟩
  simp [retrieveRedis, combine_scores, combinedDocs, pickDoc, hybridScore,
    vecVal, vecScoreOpt, txtVal, hasTextId, normVec, minVecScore, maxVecScore,
    listMinD, listMaxD, sortDesc, insDesc, idsOf, txtDocT, lastMatch,
    List.filterMap_cons, List.find?_cons]

/-! ### `rerank_by_year` (packages/api/app/agent/ranker.py, lines 10-52)

`rerank_by_year` returns `[]` for an empty input; otherwise it computes
`max_year = max((doc.get("year", 1900) for doc in docs), default=2024)`
(the default is only reachable for an empty generator), then mutates
every input record in place, setting
`doc["adjusted_score"] = doc.get("score", 0.0) + bonus` with
`bonus = (year - 1900) / (max_year - 1900) * year_weight` when
`max_year > 1900` and `0.0` otherwise, and finally returns
`sorted(docs, key=..., reverse=True)` — a new, stably sorted list of
the same (mutated) records. -/

/-- Source: `max((doc.get("year", 1900) for doc in docs), default=2024)`. -/
def max_year (docs : List Doc) : Int :=
  listMaxD (docs.map (fun d => d.year.getD 1900)) 2024

/-- The per-document recency bonus. -/
def yearBonus (maxY : Int) (year_weight : Rat) (d : Doc) : Rat :=
  if 1900 < maxY then
    ((d.year.getD 1900 - 1900 : Int) : Rat) / ((maxY - 1900 : Int) : Rat) * year_weight
  else 0

/-- One record after its in-place mutation:
`doc["adjusted_score"] = doc.get("score", 0.0) + year_bonus`. -/
def adjustedDoc (docs : List Doc) (year_weight : Rat) (d : Doc) : Doc :=
  { d with adjusted_score := some (d.score.getD 0 + yearBonus (max_year docs) year_weight d) }

/-- The in-place mutation pass: every record gets its
`adjusted_score` key written. -/
def withAdjusted (docs : List Doc) (year_weight : Rat) : List Doc :=
  docs.map (adjustedDoc docs year_weight)

/-- Source: `rerank_by_year(docs, year_weight)`: the returned list. -/
def rerank_by_year (docs : List Doc) (year_weight : Rat) : List Doc :=
  if docs.isEmpty then []
  else sortDesc (fun d => d.adjusted_score.getD 0) (withAdjusted docs year_weight)

/-- The caller's `docs` list after the call: the same records, in their
original order, each mutated with the `adjusted_score` key (the early
return on an empty list happens before any mutation). -/
def callerDocsAfter (docs : List Doc) (year_weight : Rat) : List Doc :=
  if docs.isEmpty then docs else withAdjusted docs year_weight

theorem yearBonus_of_year_none {maxY : Int} {year_weight : Rat} {d : Doc}
    (h : d.year = none) : yearBonus maxY year_weight d = 0 := by
  unfold yearBonus
  by_cases hm : 1900 < maxY
  · rw [if_pos hm, h]
    norm_num
  · rw [if_neg hm]

theorem mem_rerank_by_year {docs : List Doc} {year_weight : Rat} {d2 : Doc}
    (h : d2 ∈ rerank_by_year docs year_weight) :
    ∃ d ∈ docs, d2 = adjustedDoc docs year_weight d := by
  unfold rerank_by_year at h
  by_cases he : docs.isEmpty
  · rw [if_pos he] at h
    cases h
  · rw [if_neg he] at h
    have h2 : d2 ∈ withAdjusted docs year_weight :=
      (sortDesc_perm _ _).mem_iff.mp h
    unfold withAdjusted at h2
    obtain ⟨d, hd, hd2⟩ := List.mem_map.mp h2
    exact ⟨d, hd, hd2.symm⟩

/-- C6 (amended): `rerank_by_year` keeps `[]` for an empty input; for
each output record `adjustedScore = hybridScore + bonus` with
`bonus = (year - 1900) / (maxYear - 1900) * yearWeight` when
`maxYear > 1900` and `0` otherwise, where a missing year counts as
`1900` (hence bonus `0`), `maxYear` is the maximum of the candidates'
years (missing years counting as `1900`; the `2024` default is only
reachable for the empty set, which returns early), and a year before
`1900` yields a *negative* bonus — nothing is clamped; the result is
re-sorted descending by `adjustedScore` with a stable tie-break
preserving the prior order. -/
theorem rerank_by_year_spec (docs : List Doc) (year_weight : Rat) :
    (docs = [] → rerank_by_year docs year_weight = [])
    ∧ (∀ d2 ∈ rerank_by_year docs year_weight, ∃ d ∈ docs,
        d2 = adjustedDoc docs year_weight d)
    ∧ (∀ d2 ∈ rerank_by_year docs year_weight, d2.year = none →
        d2.adjusted_score = some (d2.score.getD 0))
    ∧ SortedDescBy (fun d => d.adjusted_score.getD 0) (rerank_by_year docs year_weight)
    ∧ (∀ q, (rerank_by_year docs year_weight).filter
          (fun d => decide (d.adjusted_score.getD 0 = q)) =
        (withAdjusted docs year_weight).filter
          (fun d => decide (d.adjusted_score.getD 0 = q)))
    ∧ ((∀ d ∈ docs, d.year = none) → ∀ d2 ∈ rerank_by_year docs year_weight,
        d2.adjusted_score = some (d2.score.getD 0)) := by
  refine ⟨?_, fun d2 h => mem_rerank_by_year h, ?_, ?_, ?_, ?_⟩
  · intro h
    rw [h]
    rfl
  · intro d2 h hy
    obtain ⟨d, _, rfl⟩ := mem_rerank_by_year h
    have hdy : d.year = none := hy
    simp [adjustedDoc, yearBonus_of_year_none hdy]
  · unfold rerank_by_year
    by_cases he : docs.isEmpty
    · rw [if_pos he]
      exact List.Pairwise.nil
    · rw [if_neg he]
      exact sortDesc_sorted _ _
  · intro q
    unfold rerank_by_year
    by_cases he : docs.isEmpty
    · rw [if_pos he]
      have hd : docs = [] := List.isEmpty_iff.mp he
      rw [hd]
      rfl
    · rw [if_neg he]
      exact sortDesc_filter_key _ _ q
  · intro hall d2 h
    obtain ⟨d, hd, rfl⟩ := mem_rerank_by_year h
    simp [adjustedDoc, yearBonus_of_year_none (hall d hd)]

/-- C10 (amended): `rerank_by_year` is deterministic in its input, but
it mutates the caller's records in place: after the call every record
of the caller's list carries a freshly written `adjusted_score`, while
all other fields and the list order are untouched, and the returned
list is a permutation (a stable re-sort) of those mutated records. -/
theorem rerank_by_year_frame (docs : List Doc) (year_weight : Rat) :
    ((callerDocsAfter docs year_weight).map (fun d => { d with adjusted_score := none })
        = docs.map (fun d => { d with adjusted_score := none }))
    ∧ (callerDocsAfter docs year_weight).length = docs.length
    ∧ List.Perm (rerank_by_year docs year_weight) (callerDocsAfter docs year_weight) := by
  unfold callerDocsAfter rerank_by_year
  by_cases he : docs.isEmpty
  · have hd : docs = [] := List.isEmpty_iff.mp he
    subst hd
    simp
  · rw [if_neg he, if_neg he]
    refine ⟨?_, ?_, sortDesc_perm _ _⟩
    · unfold withAdjusted
      rw [List.map_map]
      rfl
    · unfold withAdjusted
      rw [List.length_map]

/-- Candidates for the reranker counterexamples: a pre-1900 article
with the best hybrid score and a recent article. -/
def oldDoc : Doc := { id := some "old", score := some 1, year := some 1800 }

def newDoc : Doc := { id := some "new", score := some 0, year := some 2000 }

/-- C6 counterexample: with candidates from years 1800 and 2000,
`maxYear = 2000 > 1900`, and the 1800 candidate receives bonus
`(1800 - 1900) / (2000 - 1900) * 0.1 = -0.1`: its adjusted score drops
from `1` to `0.9`.  The claim says out-of-range years are clamped to a
zero bonus, which would have left the adjusted score at `1`. -/
theorem rerank_by_year_negative_bonus_counterexample :
    ((rerank_by_year [oldDoc, newDoc] (1/10)).find?
        (fun d => decide (d.id = some "old"))).map (fun d => d.adjusted_score)
      = some (some (9/10))
    ∧ (9/10 : Rat) < 1 ∧ oldDoc.score = some 1 := by
  refine ⟨?_, by norm_num, rfl⟩
  norm_num [rerank_by_year, withAdjusted, adjustedDoc, max_year, yearBonus,
    listMaxD, sortDesc, insDesc, oldDoc, newDoc, List.find?_cons]

/-- C10 counterexample: the caller's records are not left intact — the
single input record acquires an `adjusted_score` it did not have. -/
theorem rerank_by_year_mutation_counterexample :
    callerDocsAfter [newDoc] (1/10) ≠ [newDoc]
    ∧ (callerDocsAfter [newDoc] (1/10)).map (fun d => d.adjusted_score)
        = [some (1/10)]
    ∧ newDoc.adjusted_score = none := by
  have hmap : (callerDocsAfter [newDoc] (1/10)).map (fun d => d.adjusted_score)
      = [some (1/10)] := by
    norm_num [callerDocsAfter, withAdjusted, adjustedDoc, max_year, yearBonus,
      listMaxD, newDoc]
  refine ⟨?_, hmap, rfl⟩
  intro h
  rw [h] at hmap
  simp [newDoc] at hmap

/-- C6 witness: the amended reranker specification instantiated on the
concrete two-candidate list. -/
theorem rerank_by_year_spec_witness :
    ([oldDoc, newDoc] = ([] : List Doc) → rerank_by_year [oldDoc, newDoc] (1/10) = [])
    ∧ (∀ d2 ∈ rerank_by_year [oldDoc, newDoc] (1/10), ∃ d ∈ [oldDoc, newDoc],
        d2 = adjustedDoc [oldDoc, newDoc] (1/10) d)
    ∧ (∀ d2 ∈ rerank_by_year [oldDoc, newDoc] (1/10), d2.year = none →
        d2.adjusted_score = some (d2.score.getD 0))
    ∧ SortedDescBy (fun d => d.adjusted_score.getD 0) (rerank_by_year [oldDoc, newDoc] (1/10))
    ∧ (∀ q, (rerank_by_year [oldDoc, newDoc] (1/10)).filter
          (fun d => decide (d.adjusted_score.getD 0 = q)) =
        (withAdjusted [oldDoc, newDoc] (1/10)).filter
          (fun d => decide (d.adjusted_score.getD 0 = q)))
    ∧ ((∀ d ∈ [oldDoc, newDoc], d.year = none) →
        ∀ d2 ∈ rerank_by_year [oldDoc, newDoc] (1/10),
          d2.adjusted_score = some (d2.score.getD 0)) :=
  rerank_by_year_spec [oldDoc, newDoc] (1/10)

/-! ### `Retriever._retrieve_fallback` (retriever.py, lines 145-207)

The in-memory tier scores every cached article by raw cosine
similarity (`results`), computes TF-IDF cosine scores (`text_results`
as id/score pairs), and only when *both* lists are non-empty blends
them in place: `doc["score"] = 0.7 * vec_score + 0.3 * txt_score`,
where `vec_score` is the *raw* similarity — no min-max normalization,
no inversion — and `txt_score` is the raw TF-IDF value looked up by id
(0.0 when absent).  Then it sorts descending by score and truncates. -/

/-- The `text_scores` dict of the fallback tier (last write wins). -/
def textScoreLookup (textResults : List (Option String × Rat)) (i : Option String) :
    Option Rat :=
  (lastMatch (fun r => decide (r.1 = i)) textResults).map (·.2)

/-- One document after the fallback blending assignment. -/
def fallbackBlendDoc (textResults : List (Option String × Rat)) (d : Doc) : Doc :=
  { d with score := some ((7/10) * d.score.getD 0 + (3/10) * (textScoreLookup textResults d.id).getD 0) }

/-- Steps 3-4 of `_retrieve_fallback`: blend (only when both signal
lists are non-empty), sort descending by score, truncate to `top_k`. -/
def retrieveFallback (results : List Doc) (textResults : List (Option String × Rat))
    (topK : Nat) : List Doc :=
  let results2 :=
    if results.isEmpty || textResults.isEmpty then results
    else results.map (fallbackBlendDoc textResults)
  (sortDesc (fun d => d.score.getD 0) results2).take topK

/-- C7 (amended): when both signals are present the fallback tier
blends the *raw* vector similarity with the raw TF-IDF score at fixed
weights `0.7 / 0.3` (no min-max normalization, no inversion, no flat
`0.5` placeholder), then sorts descending and truncates; it is not the
same combination function as the networked tier's `combine_scores`
(see the counterexample). -/
theorem retrieveFallback_spec (results : List Doc)
    (textResults : List (Option String × Rat)) (topK : Nat)
    (h1 : results ≠ []) (h2 : textResults ≠ []) :
    SortedDescBy (fun d => d.score.getD 0) (retrieveFallback results textResults topK)
    ∧ (∀ d2 ∈ retrieveFallback results textResults topK, ∃ d ∈ results,
        d2 = fallbackBlendDoc textResults d)
    ∧ (retrieveFallback results textResults topK).length ≤ topK := by
  have he1 : results.isEmpty = false := by
    cases results with
    | nil => exact absurd rfl h1
    | cons x xs => rfl
  have he2 : textResults.isEmpty = false := by
    cases textResults with
    | nil => exact absurd rfl h2
    | cons x xs => rfl
  have hr : retrieveFallback results textResults topK =
      (sortDesc (fun d => d.score.getD 0)
        (results.map (fallbackBlendDoc textResults))).take topK := by
    unfold retrieveFallback
    rw [he1, he2]
    rfl
  refine ⟨?_, ?_, ?_⟩
  · rw [hr]
    exact List.Pairwise.sublist (List.take_sublist _ _) (sortDesc_sorted _ _)
  · intro d2 hd2
    rw [hr] at hd2
    have hmem : d2 ∈ results.map (fallbackBlendDoc textResults) :=
      (sortDesc_perm _ _).mem_iff.mp (List.mem_of_mem_take hd2)
    obtain ⟨d, hd, hdd⟩ := List.mem_map.mp hmem
    exact ⟨d, hd, hdd.symm⟩
  · rw [hr]
    exact List.length_take_le _ _

/-- Fallback counterexample inputs: raw cosine similarities `0.2` and
`0.8`, TF-IDF score `0` for both articles. -/
def fbDocA : Doc := { id := some "a", score := some (1/5) }

def fbDocB : Doc := { id := some "b", score := some (4/5) }

def fbTxtA : Doc := { id := some "a", score := some 0 }

def fbTxtB : Doc := { id := some "b", score := some 0 }

/-- C7 counterexample: on the same inputs the fallback tier ranks `"b"`
first (raw blending: `0.56` vs `0.14`), while `combine_scores` ranks
`"a"` first (min-max normalization + inversion + flat `0.5` text
placeholder: `0.85` vs `0.15`): the two combination functions are not
extensionally equal. -/
theorem retrieveFallback_not_combine_scores_counterexample :
    validOrder [some "a", some "b"] [fbDocA, fbDocB] [fbTxtA, fbTxtB]
    ∧ (retrieveFallback [fbDocA, fbDocB] [(some "a", 0), (some "b", 0)] 5).map
        (fun d => (d.id, d.score)) = [(some "b", some (14/25)), (some "a", some (7/50))]
    ∧ ((combine_scores [some "a", some "b"] [fbDocA, fbDocB] [fbTxtA, fbTxtB]
          (7/10)).take 5).map (fun d => (d.id, d.score))
        = [(some "a", some (17/20)), (some "b", some (3/20))]
    ∧ retrieveFallback [fbDocA, fbDocB] [(some "a", 0), (some "b", 0)] 5
        ≠ (combine_scores [some "a", some "b"] [fbDocA, fbDocB] [fbTxtA, fbTxtB]
            (7/10)).take 5 := by
  have hfb : (retrieveFallback [fbDocA, fbDocB] [(some "a", 0), (some "b", 0)] 5).map
      (fun d => (d.id, d.score)) = [(some "b", some (14/25)), (some "a", some (7/50))] := by
    simp [retrieveFallback, fallbackBlendDoc, textScoreLookup, lastMatch,
      sortDesc, insDesc, fbDocA, fbDocB, List.find?_cons]
    norm_num
  have hcs : ((combine_scores [some "a", some "b"] [fbDocA, fbDocB] [fbTxtA, fbTxtB]
      (7/10)).take 5).map (fun d => (d.id, d.score))
      = [(some "a", some (17/20)), (some "b", some (3/20))] := by
    simp [combine_scores, combinedDocs, pickDoc, hybridScore, vecVal,
      vecScoreOpt, txtVal, hasTextId, normVec, minVecScore, maxVecScore,
      listMinD, listMaxD, sortDesc, insDesc, fbDocA, fbDocB, fbTxtA, fbTxtB,
      lastMatch, List.filterMap_cons, List.find?_cons]
    norm_num
  refine ⟨by decide, hfb, hcs, ?_⟩
  intro h
  rw [h, hcs] at hfb
  simp at hfb

/-- C7 witness: the amended fallback-blending specification on the
concrete two-article corpus. -/
theorem retrieveFallback_spec_witness :
    ([fbDocA, fbDocB] : List Doc) ≠ []
    ∧ ([(some "a", (0:Rat)), (some "b", 0)] : List (Option String × Rat)) ≠ []
    ∧ (SortedDescBy (fun d => d.score.getD 0)
          (retrieveFallback [fbDocA, fbDocB] [(some "a", 0), (some "b", 0)] 5)
      ∧ (∀ d2 ∈ retrieveFallback [fbDocA, fbDocB] [(some "a", 0), (some "b", 0)] 5,
          ∃ d ∈ [fbDocA, fbDocB], d2 = fallbackBlendDoc [(some "a", 0), (some "b", 0)] d)
      ∧ (retrieveFallback [fbDocA, fbDocB] [(some "a", 0), (some "b", 0)] 5).length ≤ 5) :=
  ⟨by simp, by simp,
    retrieveFallback_spec [fbDocA, fbDocB] [(some "a", 0), (some "b", 0)] 5
      (by simp) (by simp)⟩

/-! ### The knowledge graph (packages/api/app/graph.py) and its builder
(agents/build_knowledge_graph.py)

The networkx `nx.Graph` is embedded as an association list of node
attribute records plus an undirected edge list (at most one entry per
unordered endpoint pair arises by construction, since `add_relationship`
only appends when `has_edge` is false).  Self-loops are representable,
exactly as in networkx. -/

/-- Node attributes written by the builder: `type`, `name` (display
casing) and the `experiment_ids` list. -/
structure NodeData where
  type : String
  name : String
  experiment_ids : List String
deriving DecidableEq

/-- The `KnowledgeGraph` state. -/
structure KG where
  nodes : List (String × NodeData)
  edges : List (String × String × Rat)
deriving DecidableEq

def KG.empty : KG := ⟨[], []⟩

def KG.nodeIds (kg : KG) : List String := kg.nodes.map (·.1)

/-- Source: `get_entity`: the node's attribute dict, `None` when absent. -/
def KG.get_entity (kg : KG) (i : String) : Option NodeData :=
  (kg.nodes.find? (fun p => decide (p.1 = i))).map (·.2)

/-- Source: `add_entity`: adds the node only when the id is not yet present. -/
def KG.add_entity (kg : KG) (i : String) (d : NodeData) : KG :=
  if i ∈ kg.nodeIds then kg else { kg with nodes := kg.nodes ++ [(i, d)] }

/-- Whether the stored edge `(x, y)` is the unordered pair `{a, b}`. -/
def pairEqB (x y a b : String) : Bool :=
  decide ((x = a ∧ y = b) ∨ (x = b ∧ y = a))

def KG.hasEdge (kg : KG) (a b : String) : Bool :=
  kg.edges.any (fun e => pairEqB e.1 e.2.1 a b)

/-- The weight stored on the undirected edge `{a, b}`, if the edge
exists. -/
def KG.edgeWeight (kg : KG) (a b : String) : Option Rat :=
  (kg.edges.find? (fun e => pairEqB e.1 e.2.1 a b)).map (·.2.2)

/-- Source: `add_relationship(entity1_id, entity2_id, weight)`: a silent no-op
when either endpoint is missing; creates the edge with the given
weight when absent; otherwise increments the stored weight by `1`
(ignoring the `weight` argument, as the source does). -/
def KG.add_relationship (kg : KG) (a b : String) (w : Rat) : KG :=
  if a ∈ kg.nodeIds ∧ b ∈ kg.nodeIds then
    if kg.hasEdge a b then
      let f := fun (e : String × String × Rat) =>
        if pairEqB e.1 e.2.1 a b then (e.1, e.2.1, e.2.2 + 1) else e
      { kg with edges := kg.edges.map f }
    else { kg with edges := kg.edges ++ [(a, b, w)] }
  else kg

/-- The maximal whitespace-separated words of a character list, in
order — the behaviour of Python's `str.split()` with no argument
(leading/trailing whitespace produces no empty words). -/
def splitWsAux : List Char → List Char → List (List Char)
  | [], acc => if acc.isEmpty then [] else [acc.reverse]
  | c :: cs, acc =>
    if c.isWhitespace then
      if acc.isEmpty then splitWsAux cs []
      else acc.reverse :: splitWsAux cs []
    else splitWsAux cs (c :: acc)

/-- Source: `ArticleGraphBuilder._normalize_name`: empty/falsy input maps to
`""`; otherwise whitespace runs are collapsed to single spaces
(`" ".join(name.strip().split())`) and the result is lowercased. -/
def normalize_name (name : String) : String :=
  if name = "" then ""
  else String.mk ((List.intercalate [' '] (splitWsAux name.data [])).map Char.toLower)

/-- An article document as consumed by `_process_article`. -/
structure Article where
  experiment_id : Option String := none
  authors : List String := []
  institutions : List String := []
  organisms : List String := []
  journal : Option String := none
deriving DecidableEq

/-- Python truthiness of `article.get("experiment_id")`: both a missing
key and an empty string make the builder skip the article. -/
def expIdOf (art : Article) : Option String :=
  match art.experiment_id with
  | none => none
  | some e => if e = "" then none else some e

/-- One entity mention: the prefixed vertex id, the vertex type and the
original (pre-normalization) string. -/
structure Mention where
  vid : String
  vtype : String
  orig : String
deriving DecidableEq

/-- The mentions of one article in the builder's processing order:
authors, institutions, organisms, then the journal; falsy (empty)
strings are skipped. -/
def articleMentions (art : Article) : List Mention :=
  ((art.authors.filter (fun s => !s.isEmpty)).map
      (fun s => ⟨"author:" ++ normalize_name s, "author", s⟩))
  ++ ((art.institutions.filter (fun s => !s.isEmpty)).map
      (fun s => ⟨"institution:" ++ normalize_name s, "institution", s⟩))
  ++ ((art.organisms.filter (fun s => !s.isEmpty)).map
      (fun s => ⟨"organism:" ++ normalize_name s, "organism", s⟩))
  ++ (match art.journal with
      | none => []
      | some j => if j = "" then [] else [⟨"journal:" ++ normalize_name j, "journal", j⟩])

/-- The `article_vertices` list — a *list*, not a set: repeated
mentions that normalize to the same id appear repeatedly. -/
def articleVertexIds (art : Article) : List String :=
  (articleMentions art).map (·.vid)

/-- Source: `_add_or_update_vertex`: create the vertex on first sight (keeping
the original casing as `name`, falling back to the id for a falsy
name), else append `experiment_id` to its list only when absent. -/
def addOrUpdateVertex (kg : KG) (vid vtype expId orig : String) : KG :=
  match kg.get_entity vid with
  | none => kg.add_entity vid ⟨vtype, if orig = "" then vid else orig, [expId]⟩
  | some d =>
    if expId ∈ d.experiment_ids then kg
    else
      let f := fun (p : String × NodeData) =>
        if p.1 = vid then (p.1, ⟨p.2.type, p.2.name, p.2.experiment_ids ++ [expId]⟩) else p
      { kg with nodes := kg.nodes.map f }

/-- The builder's pairwise loop: `for i, v1 in enumerate(article_vertices):
for v2 in article_vertices[i+1:]: add_relationship(v1, v2, 1.0)`. -/
def addPairs (kg : KG) : List String → KG
  | [] => kg
  | v :: vs => addPairs (vs.foldl (fun g w => g.add_relationship v w 1) kg) vs

/-- Source: `_process_article`: skip articles without a truthy
`experiment_id`; otherwise add/update every mention's vertex and then
link all vertex-list pairs. -/
def processArticle (kg : KG) (art : Article) : KG :=
  match expIdOf art with
  | none => kg
  | some e =>
    let ms := articleMentions art
    addPairs (ms.foldl (fun g m => addOrUpdateVertex g m.vid m.vtype e m.orig) kg)
      (ms.map (·.vid))

/-- Source: `build_graph`: process every article in corpus order, starting from
a fresh graph. -/
def buildGraph (arts : List Article) : KG :=
  arts.foldl processArticle KG.empty

/-! ### Edge-weight accounting -/

/-- The effect of one `add_relationship` call on a stored weight:
create with weight 1, or increment by 1. -/
def bump : Option Rat → Option Rat
  | none => some 1
  | some w => some (w + 1)

/-- Applies `n` successive bumps. -/
def bumpN : Nat → Option Rat → Option Rat
  | 0, x => x
  | n + 1, x => bump (bumpN n x)

theorem bumpN_zero (x : Option Rat) : bumpN 0 x = x := rfl

theorem bumpN_bump (n : Nat) (x : Option Rat) : bumpN n (bump x) = bump (bumpN n x) := by
  induction n with
  | zero => rfl
  | succ k ih => rw [bumpN, ih, bumpN]

theorem bumpN_add (m n : Nat) (x : Option Rat) : bumpN (m + n) x = bumpN m (bumpN n x) := by
  induction m with
  | zero => rw [Nat.zero_add]; rfl
  | succ k ih => rw [Nat.succ_add, bumpN, ih, bumpN]

theorem bumpN_none (n : Nat) :
    bumpN n none = if n = 0 then none else some ((n : Nat) : Rat) := by
  induction n with
  | zero => rfl
  | succ k ih =>
    rw [bumpN, ih]
    by_cases hk : k = 0
    · subst hk
      norm_num [bump]
    · rw [if_neg hk, if_neg (Nat.succ_ne_zero k)]
      unfold bump
      push_cast
      ring_nf

theorem pairEqB_iff {x y a b : String} :
    pairEqB x y a b = true ↔ ((x = a ∧ y = b) ∨ (x = b ∧ y = a)) := by
  simp [pairEqB]

theorem pairEqB_comm (x y a b : String) : pairEqB x y a b = pairEqB x y b a := by
  unfold pairEqB
  exact decide_eq_decide.mpr (by tauto)

theorem pairEqB_swap (x y a b : String) : pairEqB x y a b = pairEqB y x a b := by
  unfold pairEqB
  exact decide_eq_decide.mpr (by tauto)

theorem pairEqB_compat {a b x y : String} (h : pairEqB a b x y = true) (p q : String) :
    pairEqB p q a b = pairEqB p q x y := by
  rcases pairEqB_iff.mp h with ⟨rfl, rfl⟩ | ⟨rfl, rfl⟩
  · rfl
  · exact (pairEqB_comm p q b a).symm

theorem add_relationship_nodes (kg : KG) (a b : String) (w : Rat) :
    (kg.add_relationship a b w).nodes = kg.nodes := by
  unfold KG.add_relationship
  split
  · split <;> rfl
  · rfl

theorem add_relationship_nodeIds (kg : KG) (a b : String) (w : Rat) :
    (kg.add_relationship a b w).nodeIds = kg.nodeIds := by
  unfold KG.nodeIds
  rw [add_relationship_nodes]

theorem hasEdge_iff_find? (kg : KG) (a b : String) :
    kg.hasEdge a b = false ↔
      kg.edges.find? (fun e => pairEqB e.1 e.2.1 a b) = none := by
  unfold KG.hasEdge
  rw [List.any_eq_false, List.find?_eq_none]

theorem edgeWeight_add_relationship (kg : KG) (a b x y : String)
    (ha : a ∈ kg.nodeIds) (hb : b ∈ kg.nodeIds) :
    (kg.add_relationship a b 1).edgeWeight x y =
      if pairEqB a b x y = true then bump (kg.edgeWeight x y)
      else kg.edgeWeight x y := by
  unfold KG.add_relationship
  rw [if_pos ⟨ha, hb⟩]
  by_cases hE : kg.hasEdge a b
  · rw [if_pos hE]
    unfold KG.edgeWeight
    simp only []
    have hpcomp : ∀ e : String × String × Rat,
        (fun e : String × String × Rat => pairEqB e.1 e.2.1 x y)
          ((fun e : String × String × Rat =>
            if pairEqB e.1 e.2.1 a b then (e.1, e.2.1, e.2.2 + 1) else e) e)
          = pairEqB e.1 e.2.1 x y := by
      intro e
      by_cases hpe : pairEqB e.1 e.2.1 a b = true
      · simp [hpe]
      · simp [hpe]
    rw [List.find?_map]
    have hcongr : (fun e : String × String × Rat => pairEqB e.1 e.2.1 x y) ∘
        (fun e : String × String × Rat =>
          if pairEqB e.1 e.2.1 a b then (e.1, e.2.1, e.2.2 + 1) else e)
        = fun e : String × String × Rat => pairEqB e.1 e.2.1 x y := by
      funext e
      exact hpcomp e
    rw [hcongr]
    by_cases hp : pairEqB a b x y = true
    · rw [if_pos hp]
      have hfun : (fun e : String × String × Rat => pairEqB e.1 e.2.1 x y)
          = fun e : String × String × Rat => pairEqB e.1 e.2.1 a b := by
        funext e
        exact (pairEqB_compat hp e.1 e.2.1).symm
      rw [hfun]
      cases hf : kg.edges.find? (fun e => pairEqB e.1 e.2.1 a b) with
      | none =>
        exact absurd ((hasEdge_iff_find? kg a b).mpr hf) (by simp [hE])
      | some e0 =>
        have he0 : pairEqB e0.1 e0.2.1 a b = true := by
          have h2 := List.find?_some hf
          simpa using h2
        simp [he0, bump]

    · rw [if_neg hp]
      cases hf : kg.edges.find? (fun e => pairEqB e.1 e.2.1 x y) with
      | none => rfl
      | some e0 =>
        have he0 : pairEqB e0.1 e0.2.1 x y = true := by
          have h2 := List.find?_some hf
          simpa using h2
        have hne : pairEqB e0.1 e0.2.1 a b = false := by
          by_contra hcon
          rw [Bool.not_eq_false] at hcon
          rcases pairEqB_iff.mp hcon with ⟨h1, h2⟩ | ⟨h1, h2⟩
          · rw [h1, h2] at he0
            exact hp he0
          · rw [h1, h2] at he0
            rw [← pairEqB_swap] at he0
            exact hp he0
        simp [hne]
  · rw [if_neg hE]
    unfold KG.edgeWeight
    simp only []
    rw [List.find?_append]
    by_cases hp : pairEqB a b x y = true
    · rw [if_pos hp]
      have hfun : (fun e : String × String × Rat => pairEqB e.1 e.2.1 x y)
          = fun e : String × String × Rat => pairEqB e.1 e.2.1 a b := by
        funext e
        exact (pairEqB_compat hp e.1 e.2.1).symm
      have hnone : kg.edges.find? (fun e => pairEqB e.1 e.2.1 x y) = none := by
        rw [hfun]
        exact (hasEdge_iff_find? kg a b).mp (by simpa using hE)
      rw [hnone]
      simp [List.find?, hp, bump, hnone]
    · rw [if_neg hp]
      have hlast : List.find? (fun e : String × String × Rat => pairEqB e.1 e.2.1 x y)
          [(a, b, 1)] = none := by
        simp [List.find?, hp]
      rw [hlast]
      cases kg.edges.find? (fun e => pairEqB e.1 e.2.1 x y) <;> rfl

/-- How often the pairwise loop over the vertex list `V` touches the
unordered pair `{x, y}`: pairs are `(V i, V j)` with `i < j`. -/
def pairCount : List String → String → String → Nat
  | [], _, _ => 0
  | v :: vs, x, y => vs.countP (fun w => pairEqB v w x y) + pairCount vs x y

theorem pairCount_symm (V : List String) (x y : String) :
    pairCount V x y = pairCount V y x := by
  induction V with
  | nil => rfl
  | cons v vs ih =>
    unfold pairCount
    rw [ih]
    congr 1
    apply List.countP_congr
    intro w _
    rw [pairEqB_comm]

theorem pairCount_eq_zero_left {V : List String} {x : String} (y : String)
    (hx : x ∉ V) : pairCount V x y = 0 := by
  induction V with
  | nil => rfl
  | cons v vs ih =>
    unfold pairCount
    have hxv : x ≠ v := fun h => hx (h ▸ List.mem_cons_self v vs)
    have hxs : x ∉ vs := fun h => hx (List.mem_cons_of_mem v h)
    rw [ih hxs, List.countP_eq_zero.mpr, Nat.add_zero]
    intro w hw
    intro hp
    rcases pairEqB_iff.mp hp with ⟨h1, _⟩ | ⟨_, h2⟩
    · exact hxv h1.symm
    · exact hxs (h2 ▸ hw)

theorem pairCount_eq_zero_right {V : List String} {y : String} (x : String)
    (hy : y ∉ V) : pairCount V x y = 0 := by
  rw [pairCount_symm]
  exact pairCount_eq_zero_left x hy

theorem pairCount_self {V : List String} (hnd : V.Nodup) (x : String) :
    pairCount V x x = 0 := by
  induction V with
  | nil => rfl
  | cons v vs ih =>
    rcases List.nodup_cons.mp hnd with ⟨hv, hvs⟩
    unfold pairCount
    rw [ih hvs, List.countP_eq_zero.mpr, Nat.add_zero]
    intro w hw hp
    have hwv : w = v := by
      rcases pairEqB_iff.mp hp with ⟨h1, h2⟩ | ⟨h1, h2⟩ <;> rw [h2, ← h1]
    exact hv (hwv ▸ hw)

theorem countP_eq_one_unique {α : Type} {p : α → Bool} {l : List α} {a : α}
    (hnd : l.Nodup) (ha : a ∈ l) (hp : ∀ b ∈ l, (p b = true ↔ b = a)) :
    l.countP p = 1 := by
  induction l with
  | nil => cases ha
  | cons c cs ih =>
    rcases List.nodup_cons.mp hnd with ⟨hc, hcs⟩
    rw [List.countP_cons]
    rcases List.mem_cons.mp ha with rfl | ha2
    · have hpc : p a = true := (hp a (List.mem_cons_self a cs)).mpr rfl
      rw [if_pos hpc, List.countP_eq_zero.mpr, Nat.zero_add]
      intro b hb hpb
      exact hc (((hp b (List.mem_cons_of_mem a hb)).mp hpb) ▸ hb)
    · have hpc : p c = false := by
        cases hb : p c with
        | false => rfl
        | true => exact absurd (((hp c (List.mem_cons_self c cs)).mp hb) ▸ ha2) hc
      rw [hpc, if_neg (by simp), Nat.add_zero]
      exact ih hcs ha2 (fun b hb => hp b (List.mem_cons_of_mem c hb))

theorem pairCount_eq_one {V : List String} {x y : String} (hnd : V.Nodup)
    (hx : x ∈ V) (hy : y ∈ V) (hxy : x ≠ y) : pairCount V x y = 1 := by
  induction V with
  | nil => cases hx
  | cons v vs ih =>
    rcases List.nodup_cons.mp hnd with ⟨hv, hvs⟩
    unfold pairCount
    rcases List.mem_cons.mp hx with rfl | hx2
    · have hy2 : y ∈ vs := by
        rcases List.mem_cons.mp hy with rfl | h
        · exact absurd rfl hxy
        · exact h
      rw [pairCount_eq_zero_left y hv, Nat.add_zero]
      apply countP_eq_one_unique hvs hy2
      intro b hb
      constructor
      · intro hp
        rcases pairEqB_iff.mp hp with ⟨_, h2⟩ | ⟨h1, _⟩
        · exact h2
        · exact absurd h1 hxy
      · intro hb2
        exact pairEqB_iff.mpr (Or.inl ⟨rfl, hb2⟩)
    · rcases List.mem_cons.mp hy with rfl | hy2
      · rw [pairCount_eq_zero_right x hv, Nat.add_zero]
        apply countP_eq_one_unique hvs hx2
        intro b hb
        constructor
        · intro hp
          rcases pairEqB_iff.mp hp with ⟨h1, _⟩ | ⟨_, h2⟩
          · exact absurd h1.symm hxy
          · exact h2
        · intro hb2
          exact pairEqB_iff.mpr (Or.inr ⟨rfl, hb2⟩)
      · have hvx : v ≠ x := fun h => hv (h ▸ hx2)
        have hvy : v ≠ y := fun h => hv (h ▸ hy2)
        rw [ih hvs hx2 hy2, List.countP_eq_zero.mpr, Nat.zero_add]
        intro w hw hp
        rcases pairEqB_iff.mp hp with ⟨h1, _⟩ | ⟨h1, _⟩
        · exact hvx h1
        · exact hvy h1

theorem pairCount_le_one {V : List String} (hnd : V.Nodup) (x y : String) :
    pairCount V x y ≤ 1 := by
  by_cases hxy : x = y
  · subst hxy
    rw [pairCount_self hnd]
    norm_num
  · by_cases hx : x ∈ V
    · by_cases hy : y ∈ V
      · rw [pairCount_eq_one hnd hx hy hxy]
      · rw [pairCount_eq_zero_right x hy]
        norm_num
    · rw [pairCount_eq_zero_left y hx]
      norm_num

theorem foldl_addrel_nodes (vs : List String) (kg : KG) (v : String) :
    (vs.foldl (fun g w => g.add_relationship v w 1) kg).nodes = kg.nodes := by
  induction vs generalizing kg with
  | nil => rfl
  | cons w ws ih =>
    rw [List.foldl_cons, ih, add_relationship_nodes]

theorem foldl_addrel_edgeWeight (vs : List String) (kg : KG) (v x y : String)
    (hv : v ∈ kg.nodeIds) (hvs : ∀ w ∈ vs, w ∈ kg.nodeIds) :
    (vs.foldl (fun g w => g.add_relationship v w 1) kg).edgeWeight x y
      = bumpN (vs.countP (fun w => pairEqB v w x y)) (kg.edgeWeight x y) := by
  induction vs generalizing kg with
  | nil => rfl
  | cons w ws ih =>
    rw [List.foldl_cons, List.countP_cons]
    have hv2 : v ∈ (kg.add_relationship v w 1).nodeIds := by
      rw [add_relationship_nodeIds]; exact hv
    have hvs2 : ∀ u ∈ ws, u ∈ (kg.add_relationship v w 1).nodeIds := by
      intro u hu
      rw [add_relationship_nodeIds]
      exact hvs u (List.mem_cons_of_mem w hu)
    rw [ih (kg.add_relationship v w 1) hv2 hvs2]
    rw [edgeWeight_add_relationship kg v w x y hv (hvs w (List.mem_cons_self w ws))]
    by_cases hp : pairEqB v w x y = true
    · rw [if_pos hp, hp, if_pos rfl, bumpN_bump]
      rfl
    · rw [if_neg hp]
      have hpf : pairEqB v w x y = false := by
        cases hb : pairEqB v w x y with
        | false => rfl
        | true => exact absurd hb hp
      rw [hpf]
      norm_num

theorem addPairs_nodes (V : List String) (kg : KG) : (addPairs kg V).nodes = kg.nodes := by
  induction V generalizing kg with
  | nil => rfl
  | cons v vs ih =>
    unfold addPairs
    rw [ih, foldl_addrel_nodes]

theorem addPairs_edgeWeight (V : List String) (kg : KG) (x y : String)
    (hV : ∀ u ∈ V, u ∈ kg.nodeIds) :
    (addPairs kg V).edgeWeight x y = bumpN (pairCount V x y) (kg.edgeWeight x y) := by
  induction V generalizing kg with
  | nil => rfl
  | cons v vs ih =>
    unfold addPairs pairCount
    have hnodes : (vs.foldl (fun g w => g.add_relationship v w 1) kg).nodeIds = kg.nodeIds := by
      unfold KG.nodeIds
      rw [foldl_addrel_nodes]
    have hvs : ∀ u ∈ vs, u ∈ (vs.foldl (fun g w => g.add_relationship v w 1) kg).nodeIds := by
      intro u hu
      rw [hnodes]
      exact hV u (List.mem_cons_of_mem v hu)
    rw [ih _ hvs]
    rw [foldl_addrel_edgeWeight vs kg v x y (hV v (List.mem_cons_self v vs))
      (fun u hu => hV u (List.mem_cons_of_mem v hu))]
    rw [← bumpN_add, Nat.add_comm]

theorem get_entity_eq_none_iff (kg : KG) (i : String) :
    kg.get_entity i = none ↔ i ∉ kg.nodeIds := by
  unfold KG.get_entity KG.nodeIds
  rw [Option.map_eq_none', List.find?_eq_none]
  constructor
  · intro h hm
    obtain ⟨p, hp, hpi⟩ := List.mem_map.mp hm
    exact h p hp (by simp [hpi])
  · intro h p hp hpi
    have : p.1 = i := by simpa using hpi
    exact h (List.mem_map.mpr ⟨p, hp, this⟩)

theorem addOrUpdateVertex_edges (kg : KG) (vid vtype expId orig : String) :
    (addOrUpdateVertex kg vid vtype expId orig).edges = kg.edges := by
  cases hg : kg.get_entity vid with
  | none =>
    simp only [addOrUpdateVertex, hg]
    unfold KG.add_entity
    by_cases h : vid ∈ kg.nodeIds
    · rw [if_pos h]
    · rw [if_neg h]
  | some d =>
    simp only [addOrUpdateVertex, hg]
    by_cases h : expId ∈ d.experiment_ids
    · rw [if_pos h]
    · rw [if_neg h]

theorem addOrUpdateVertex_nodeIds_sup (kg : KG) (vid vtype expId orig u : String)
    (hu : u ∈ kg.nodeIds) : u ∈ (addOrUpdateVertex kg vid vtype expId orig).nodeIds := by
  cases hg : kg.get_entity vid with
  | none =>
    simp only [addOrUpdateVertex, hg]
    unfold KG.add_entity
    split
    · exact hu
    · unfold KG.nodeIds at hu ⊢
      simp only [List.map_append]
      exact List.mem_append_left _ hu
  | some d =>
    simp only [addOrUpdateVertex, hg]
    split
    · exact hu
    · unfold KG.nodeIds at hu ⊢
      simp only [List.map_map]
      have hfun : ((fun x : String × NodeData => x.1) ∘
          (fun p : String × NodeData => if p.1 = vid
            then (p.1, ⟨p.2.type, p.2.name, p.2.experiment_ids ++ [expId]⟩) else p))
          = (fun x : String × NodeData => x.1) := by
        funext q
        by_cases h : q.1 = vid <;> simp [h]
      rw [hfun]
      exact hu

theorem addOrUpdateVertex_mem (kg : KG) (vid vtype expId orig : String) :
    vid ∈ (addOrUpdateVertex kg vid vtype expId orig).nodeIds := by
  cases hg : kg.get_entity vid with
  | none =>
    simp only [addOrUpdateVertex, hg]
    have hnm : vid ∉ kg.nodeIds := (get_entity_eq_none_iff kg vid).mp hg
    unfold KG.add_entity
    rw [if_neg hnm]
    unfold KG.nodeIds
    simp
  | some d =>
    simp only [addOrUpdateVertex, hg]
    have hm : vid ∈ kg.nodeIds := by
      by_contra hc
      rw [← get_entity_eq_none_iff kg vid] at hc
      rw [hg] at hc
      cases hc
    split
    · exact hm
    · unfold KG.nodeIds at hm ⊢
      simp only [List.map_map]
      have hfun : ((fun x : String × NodeData => x.1) ∘
          (fun p : String × NodeData => if p.1 = vid
            then (p.1, ⟨p.2.type, p.2.name, p.2.experiment_ids ++ [expId]⟩) else p))
          = (fun x : String × NodeData => x.1) := by
        funext q
        by_cases h : q.1 = vid <;> simp [h]
      rw [hfun]
      exact hm

theorem foldl_addOrUpdate_edges (ms : List Mention) (e : String) (kg : KG) :
    (ms.foldl (fun g m => addOrUpdateVertex g m.vid m.vtype e m.orig) kg).edges = kg.edges := by
  induction ms generalizing kg with
  | nil => rfl
  | cons m ms2 ih =>
    rw [List.foldl_cons, ih, addOrUpdateVertex_edges]

theorem foldl_addOrUpdate_nodeIds_sup (ms : List Mention) (e : String) (kg : KG)
    (u : String) (hu : u ∈ kg.nodeIds) :
    u ∈ (ms.foldl (fun g m => addOrUpdateVertex g m.vid m.vtype e m.orig) kg).nodeIds := by
  induction ms generalizing kg with
  | nil => exact hu
  | cons m ms2 ih =>
    rw [List.foldl_cons]
    exact ih _ (addOrUpdateVertex_nodeIds_sup kg m.vid m.vtype e m.orig u hu)

theorem foldl_addOrUpdate_mention_mem (ms : List Mention) (e : String) (kg : KG)
    (m : Mention) (hm : m ∈ ms) :
    m.vid ∈ (ms.foldl (fun g m => addOrUpdateVertex g m.vid m.vtype e m.orig) kg).nodeIds := by
  induction ms generalizing kg with
  | nil => cases hm
  | cons m0 ms2 ih =>
    rw [List.foldl_cons]
    rcases List.mem_cons.mp hm with rfl | hm2
    · exact foldl_addOrUpdate_nodeIds_sup ms2 e _ m.vid
        (addOrUpdateVertex_mem kg m.vid m.vtype e m.orig)
    · exact ih _ hm2

/-- Booleanized co-occurrence: the article is processed (truthy
`experiment_id`) and both vertex ids appear among its mentions. -/
def cooccursB (art : Article) (x y : String) : Bool :=
  (expIdOf art).isSome && decide (x ∈ articleVertexIds art)
    && decide (y ∈ articleVertexIds art)

/-- The number of corpus articles in which `x` and `y` co-occur. -/
def cooccurCount (arts : List Article) (x y : String) : Nat :=
  arts.countP (fun art => cooccursB art x y)

/-- The exact effect of processing one article on one stored edge
weight: the pairwise loop bumps the pair `{x, y}` once per position
pair of the vertex list carrying those two ids. -/
theorem processArticle_edgeWeight_core (kg : KG) (art : Article) (x y : String) :
    (processArticle kg art).edgeWeight x y =
      bumpN (if (expIdOf art).isSome then pairCount (articleVertexIds art) x y else 0)
        (kg.edgeWeight x y) := by
  unfold processArticle
  cases he : expIdOf art with
  | none => rfl
  | some e =>
    simp only [Option.isSome_some, if_pos]
    have hV : ∀ u ∈ (articleMentions art).map (·.vid),
        u ∈ ((articleMentions art).foldl
          (fun g m => addOrUpdateVertex g m.vid m.vtype e m.orig) kg).nodeIds := by
      intro u hu
      obtain ⟨m, hm, hmu⟩ := List.mem_map.mp hu
      exact hmu ▸ foldl_addOrUpdate_mention_mem (articleMentions art) e kg m hm
    rw [addPairs_edgeWeight _ _ x y hV]
    have hedges : ((articleMentions art).foldl
        (fun g m => addOrUpdateVertex g m.vid m.vtype e m.orig) kg).edgeWeight x y
        = kg.edgeWeight x y := by
      unfold KG.edgeWeight
      rw [foldl_addOrUpdate_edges]
    rw [hedges]
    rfl

theorem foldl_process_edgeWeight (arts : List Article) (kg : KG) (x y : String)
    (hnd : ∀ art ∈ arts, (articleVertexIds art).Nodup) (hxy : x ≠ y) :
    (arts.foldl processArticle kg).edgeWeight x y
      = bumpN (cooccurCount arts x y) (kg.edgeWeight x y) := by
  induction arts generalizing kg with
  | nil => rfl
  | cons a rest ih =>
    rw [List.foldl_cons]
    have hnd2 : ∀ art ∈ rest, (articleVertexIds art).Nodup :=
      fun art h => hnd art (List.mem_cons_of_mem a h)
    rw [ih (processArticle kg a) hnd2]
    rw [processArticle_edgeWeight_core kg a x y]
    unfold cooccurCount
    rw [List.countP_cons]
    have hnda : (articleVertexIds a).Nodup := hnd a (List.mem_cons_self a rest)
    by_cases hs : (expIdOf a).isSome
    · rw [if_pos hs]
      by_cases hx : x ∈ articleVertexIds a
      · by_cases hy2 : y ∈ articleVertexIds a
        · have hc : cooccursB a x y = true := by
            unfold cooccursB
            simp [hs, hx, hy2]
          rw [pairCount_eq_one hnda hx hy2 hxy, hc, if_pos rfl, ← bumpN_add]
        · have hc : cooccursB a x y = false := by
            unfold cooccursB
            simp [hy2]
          rw [pairCount_eq_zero_right x hy2, hc]
          simp [bumpN_zero]
      · have hc : cooccursB a x y = false := by
          unfold cooccursB
          simp [hx]
        rw [pairCount_eq_zero_left y hx, hc]
        simp [bumpN_zero]
    · rw [if_neg hs]
      have hs2 : (expIdOf a).isSome = false := by
        cases h2 : (expIdOf a).isSome with
        | false => rfl
        | true => exact absurd h2 hs
      have hc : cooccursB a x y = false := by
        unfold cooccursB
        rw [hs2]
        rfl
      rw [hc]
      simp [bumpN_zero]

/-- C4: for a corpus of processed articles whose per-article vertex
lists are duplicate-free (distinct entity mentions), the built graph
stores, for every unordered pair of distinct vertex ids, an edge
exactly when the two ids co-occur in at least one article, and its
weight equals the number of co-occurring articles (weight 1 on
creation, +1 per additional co-occurring article). -/
theorem buildGraph_edge_weight (arts : List Article)
    (hnd : ∀ art ∈ arts, (articleVertexIds art).Nodup) (x y : String) (hxy : x ≠ y) :
    (buildGraph arts).edgeWeight x y =
      if cooccurCount arts x y = 0 then none
      else some ((cooccurCount arts x y : Nat) : Rat) := by
  unfold buildGraph
  rw [foldl_process_edgeWeight arts KG.empty x y hnd hxy]
  have hempty : KG.empty.edgeWeight x y = none := rfl
  rw [hempty, bumpN_none]

/-- Article 1: distinct mentions yielding vertices
`{author:a, author:b, organism:c}`. -/
def art1 : Article := { experiment_id := some "e1", authors := ["A", "B"], organisms := ["C"] }

/-- Article 2: distinct mentions yielding `{author:a, author:b}`. -/
def art2 : Article := { experiment_id := some "e2", authors := ["A", "B"] }

/-- An article with two mentions normalizing to the same vertex id. -/
def artDup : Article := { experiment_id := some "e1", authors := ["A B", "a b"] }

/-- C4 witness: on the two-article corpus the edge `(author:a,
author:b)` co-occurs in both articles (count 2 → weight 2), while
`(author:a, organism:c)` co-occurs only in the first (weight 1). -/
theorem buildGraph_edge_weight_witness :
    (∀ art ∈ [art1, art2], (articleVertexIds art).Nodup)
    ∧ ("author:a" : String) ≠ "author:b"
    ∧ ((buildGraph [art1, art2]).edgeWeight "author:a" "author:b" =
        if cooccurCount [art1, art2] "author:a" "author:b" = 0 then none
        else some ((cooccurCount [art1, art2] "author:a" "author:b" : Nat) : Rat))
    ∧ cooccurCount [art1, art2] "author:a" "author:b" = 2
    ∧ cooccurCount [art1, art2] "author:a" "organism:c" = 1
    ∧ cooccurCount [art1, art2] "author:b" "organism:c" = 1 :=
  ⟨by decide, by decide,
    buildGraph_edge_weight [art1, art2] (by decide) "author:a" "author:b" (by decide),
    by decide, by decide, by decide⟩

/-- C5 (amended): the builder does *not* de-duplicate repeated
mentions — the vertex list is a plain list — but whenever an article's
vertex list happens to be duplicate-free, processing it creates no
self-loop and touches each unordered pair at most once (weight
unchanged or bumped exactly once). -/
theorem processArticle_nodup_no_selfloop (kg : KG) (art : Article)
    (hnd : (articleVertexIds art).Nodup) :
    (∀ v : String, (processArticle kg art).edgeWeight v v = kg.edgeWeight v v)
    ∧ (∀ a b : String,
        (processArticle kg art).edgeWeight a b = kg.edgeWeight a b
        ∨ (processArticle kg art).edgeWeight a b = bump (kg.edgeWeight a b)) := by
  constructor
  · intro v
    rw [processArticle_edgeWeight_core kg art v v]
    by_cases hs : (expIdOf art).isSome
    · rw [if_pos hs, pairCount_self hnd]
      exact bumpN_zero _
    · rw [if_neg hs]
      exact bumpN_zero _
  · intro a b
    rw [processArticle_edgeWeight_core kg art a b]
    by_cases hs : (expIdOf art).isSome
    · rw [if_pos hs]
      have hle : pairCount (articleVertexIds art) a b ≤ 1 := pairCount_le_one hnd a b
      interval_cases h : pairCount (articleVertexIds art) a b
      · left; rfl
      · right; rfl
    · rw [if_neg hs]
      left
      rfl

/-- C5 counterexample: the article `artDup` mentions `"A B"` and
`"a b"`, both normalizing to the vertex id `"author:a b"`; because the
vertex list is not de-duplicated, the builder creates the self-loop
edge `(author:a b, author:a b)` with weight 1. -/
theorem processArticle_selfloop_counterexample :
    articleVertexIds artDup = ["author:a b", "author:a b"]
    ∧ (processArticle KG.empty artDup).edgeWeight "author:a b" "author:a b" = some 1
    ∧ KG.empty.edgeWeight "author:a b" "author:a b" = none := by
  refine ⟨by decide, by decide, rfl⟩

/-- C5 witness: the no-self-loop/at-most-one-bump guarantee applied to
the duplicate-free article `art1` processed on the empty graph. -/
theorem processArticle_nodup_no_selfloop_witness :
    (articleVertexIds art1).Nodup
    ∧ ((∀ v : String, (processArticle KG.empty art1).edgeWeight v v
          = KG.empty.edgeWeight v v)
      ∧ (∀ a b : String,
          (processArticle KG.empty art1).edgeWeight a b = KG.empty.edgeWeight a b
          ∨ (processArticle KG.empty art1).edgeWeight a b
              = bump (KG.empty.edgeWeight a b))) :=
  ⟨by decide, processArticle_nodup_no_selfloop KG.empty art1 (by decide)⟩

theorem get_entity_addOrUpdate_new (kg : KG) (vid vtype e orig : String)
    (hg : kg.get_entity vid = none) :
    (addOrUpdateVertex kg vid vtype e orig).get_entity vid =
      some ⟨vtype, if orig = "" then vid else orig, [e]⟩ := by
  simp only [addOrUpdateVertex, hg]
  unfold KG.add_entity
  rw [if_neg ((get_entity_eq_none_iff kg vid).mp hg)]
  unfold KG.get_entity
  have hfn : kg.nodes.find? (fun p => decide (p.1 = vid)) = none := by
    have h2 := hg
    unfold KG.get_entity at h2
    exact Option.map_eq_none'.mp h2
  rw [List.find?_append, hfn]
  simp [List.find?]

theorem get_entity_addOrUpdate_existing (kg : KG) (vid vtype e orig : String)
    (d : NodeData) (hg : kg.get_entity vid = some d) :
    (addOrUpdateVertex kg vid vtype e orig).get_entity vid =
      some ⟨d.type, d.name,
        if e ∈ d.experiment_ids then d.experiment_ids else d.experiment_ids ++ [e]⟩ := by
  simp only [addOrUpdateVertex, hg]
  by_cases he : e ∈ d.experiment_ids
  · rw [if_pos he, if_pos he]
    exact hg
  · rw [if_neg he, if_neg he]
    unfold KG.get_entity at hg ⊢
    simp only []
    rw [List.find?_map]
    have hcomp : ((fun p : String × NodeData => decide (p.1 = vid)) ∘
        (fun p : String × NodeData => if p.1 = vid
          then (p.1, ⟨p.2.type, p.2.name, p.2.experiment_ids ++ [e]⟩) else p))
        = fun p : String × NodeData => decide (p.1 = vid) := by
      funext q
      by_cases h : q.1 = vid <;> simp [h]
    rw [hcomp]
    obtain ⟨q, hq, hq2⟩ := Option.map_eq_some'.mp hg
    have hq1 : q.1 = vid := by
      have h2 := List.find?_some hq
      simpa using h2
    rw [hq]
    simp [hq1, hq2]

theorem get_entity_addOrUpdate_other (kg : KG) (vid vtype e orig v : String)
    (hne : v ≠ vid) :
    (addOrUpdateVertex kg vid vtype e orig).get_entity v = kg.get_entity v := by
  cases hg : kg.get_entity vid with
  | none =>
    simp only [addOrUpdateVertex, hg]
    unfold KG.add_entity
    rw [if_neg ((get_entity_eq_none_iff kg vid).mp hg)]
    unfold KG.get_entity
    simp only []
    rw [List.find?_append]
    have hlast : List.find? (fun p : String × NodeData => decide (p.1 = v))
        [(vid, ⟨vtype, if orig = "" then vid else orig, [e]⟩)] = none := by
      simp [List.find?, hne.symm]
    rw [hlast]
    cases kg.nodes.find? (fun p => decide (p.1 = v)) <;> rfl
  | some d =>
    simp only [addOrUpdateVertex, hg]
    by_cases he : e ∈ d.experiment_ids
    · rw [if_pos he]
    · rw [if_neg he]
      unfold KG.get_entity
      simp only []
      rw [List.find?_map]
      have hcomp : ((fun p : String × NodeData => decide (p.1 = v)) ∘
          (fun p : String × NodeData => if p.1 = vid
            then (p.1, ⟨p.2.type, p.2.name, p.2.experiment_ids ++ [e]⟩) else p))
          = fun p : String × NodeData => decide (p.1 = v) := by
        funext q
        by_cases h : q.1 = vid <;> simp [h]
      rw [hcomp]
      cases hf : kg.nodes.find? (fun p => decide (p.1 = v)) with
      | none => rfl
      | some q =>
        have hq1 : q.1 = v := by
          have h2 := List.find?_some hf
          simpa using h2
        have hqv : ¬ q.1 = vid := by
          rw [hq1]
          exact hne
        simp [hqv]

theorem get_entity_fold_mentions (ms : List Mention) (e : String) (kg : KG)
    (v : String) (d : NodeData) (h : kg.get_entity v = some d) :
    ∃ ids2, (ms.foldl (fun g m => addOrUpdateVertex g m.vid m.vtype e m.orig) kg).get_entity v
        = some ⟨d.type, d.name, ids2⟩
      ∧ (ids2 = d.experiment_ids
          ∨ (e ∉ d.experiment_ids ∧ ids2 = d.experiment_ids ++ [e])) := by
  induction ms generalizing kg d with
  | nil =>
    exact ⟨d.experiment_ids, h, Or.inl rfl⟩
  | cons m ms2 ih =>
    rw [List.foldl_cons]
    by_cases hm : m.vid = v
    · have hsame0 := get_entity_addOrUpdate_existing kg m.vid m.vtype e m.orig d
        (by rw [hm]; exact h)
      have hsame : (addOrUpdateVertex kg m.vid m.vtype e m.orig).get_entity v =
          some ⟨d.type, d.name,
            if e ∈ d.experiment_ids then d.experiment_ids else d.experiment_ids ++ [e]⟩ := by
        rw [← hm]
        exact hsame0
      by_cases he : e ∈ d.experiment_ids
      · rw [if_pos he] at hsame
        obtain ⟨ids2, hfin, hor⟩ := ih _ _ hsame
        exact ⟨ids2, hfin, hor⟩
      · rw [if_neg he] at hsame
        obtain ⟨ids2, hfin, hor⟩ := ih _ _ hsame
        refine ⟨ids2, hfin, ?_⟩
        rcases hor with h1 | ⟨h1, _⟩
        · exact Or.inr ⟨he, h1⟩
        · exact absurd (List.mem_append_right _ (List.mem_singleton.mpr rfl)) h1
    · have hother := get_entity_addOrUpdate_other kg m.vid m.vtype e m.orig v
        (fun hc => hm hc.symm)
      rw [h] at hother
      exact ih _ _ hother

theorem addPairs_get_entity (V : List String) (kg : KG) (v : String) :
    (addPairs kg V).get_entity v = kg.get_entity v := by
  unfold KG.get_entity
  rw [addPairs_nodes]

/-- C9: once a vertex exists, processing any further article never
re-creates it: its `type` and first-seen display `name` are unchanged,
its `experiment_ids` either stays as is or gets the article's
`experiment_id` appended once at the end — only when not already a
member — so the list grows monotonically (the old list is a prefix),
never shrinks, and stays duplicate-free; re-processing an article
whose id is already recorded leaves it untouched. -/
theorem processArticle_vertex_invariant (kg : KG) (art : Article) (v : String)
    (d : NodeData) (h : kg.get_entity v = some d) :
    ∃ d2, (processArticle kg art).get_entity v = some d2
      ∧ d2.type = d.type
      ∧ d2.name = d.name
      ∧ (d2.experiment_ids = d.experiment_ids
          ∨ ∃ e, expIdOf art = some e ∧ e ∉ d.experiment_ids
              ∧ d2.experiment_ids = d.experiment_ids ++ [e])
      ∧ List.Sublist d.experiment_ids d2.experiment_ids
      ∧ (d.experiment_ids.Nodup → d2.experiment_ids.Nodup) := by
  unfold processArticle
  cases hexp : expIdOf art with
  | none =>
    exact ⟨d, h, rfl, rfl, Or.inl rfl, List.Sublist.refl _, id⟩
  | some e =>
    obtain ⟨ids2, hfin, hor⟩ := get_entity_fold_mentions (articleMentions art) e kg v d h
    refine ⟨⟨d.type, d.name, ids2⟩, ?_, rfl, rfl, ?_, ?_, ?_⟩
    · rw [addPairs_get_entity]
      exact hfin
    · rcases hor with h1 | ⟨h1, h2⟩
      · exact Or.inl h1
      · exact Or.inr ⟨e, rfl, h1, h2⟩
    · rcases hor with h1 | ⟨_, h2⟩
      · rw [h1]
      · rw [h2]
        exact List.sublist_append_left _ _
    · intro hnd
      rcases hor with h1 | ⟨h1, h2⟩
      · rw [h1]
        exact hnd
      · rw [h2]
        simp [List.nodup_append, hnd, h1]

/-- C9 witness: after `art1` created `author:a` with name `"A"` and
source list `["e1"]`, processing `art2` appends `"e2"` exactly once
while keeping the name. -/
theorem processArticle_vertex_invariant_witness :
    (processArticle KG.empty art1).get_entity "author:a"
        = some ⟨"author", "A", ["e1"]⟩
    ∧ (∃ d2, (processArticle (processArticle KG.empty art1) art2).get_entity "author:a"
          = some d2
        ∧ d2.type = (⟨"author", "A", ["e1"]⟩ : NodeData).type
        ∧ d2.name = (⟨"author", "A", ["e1"]⟩ : NodeData).name
        ∧ (d2.experiment_ids = (⟨"author", "A", ["e1"]⟩ : NodeData).experiment_ids
            ∨ ∃ e, expIdOf art2 = some e
                ∧ e ∉ (⟨"author", "A", ["e1"]⟩ : NodeData).experiment_ids
                ∧ d2.experiment_ids
                    = (⟨"author", "A", ["e1"]⟩ : NodeData).experiment_ids ++ [e])
        ∧ List.Sublist (⟨"author", "A", ["e1"]⟩ : NodeData).experiment_ids
            d2.experiment_ids
        ∧ ((⟨"author", "A", ["e1"]⟩ : NodeData).experiment_ids.Nodup →
            d2.experiment_ids.Nodup)) :=
  ⟨by decide,
    processArticle_vertex_invariant (processArticle KG.empty art1) art2 "author:a"
      ⟨"author", "A", ["e1"]⟩ (by decide)⟩

/-! ### `GraphService.get_neighbors_subgraph`
(packages/api/app/services/graph_service.py, lines 265-315)

The service raises `ValueError` (mapped to HTTP 404 by the router) for
an unknown vertex; otherwise it runs exactly `max_depth` expansion
rounds over networkx neighbor sets starting from `{node_id}`,
accumulates the reached vertices and returns the subgraph induced over
the accumulated set (`graph.subgraph(nodes_to_include)`), which keeps
every edge of the full graph whose two endpoints are both included —
including self-loops. -/

/-- networkx `graph.neighbors(v)` over our edge list: the opposite
endpoint of each edge incident to `v` (for the self-loop `(v, v)`,
`v` itself). -/
def neighborsOf (kg : KG) (v : String) : List String :=
  kg.edges.filterMap (fun e =>
    if e.1 = v then some e.2.1 else if e.2.1 = v then some e.1 else none)

/-- The `for _ in range(max_depth)` loop: carries
(`nodes_to_include`, `current_level`). -/
def bfsRounds (kg : KG) : Nat → List String → List String → List String
  | 0, inc, _ => inc
  | n + 1, inc, cur =>
    let nxt := (cur.map (neighborsOf kg)).flatten.dedup
    bfsRounds kg n ((inc ++ nxt).dedup) nxt

/-- The vis.js projection: node ids and the induced edges. -/
structure Subgraph where
  nodes : List String
  edges : List (String × String × Rat)
deriving DecidableEq

/-- Source: `get_neighbors_subgraph(node_id, max_depth)`. -/
def get_neighbors_subgraph (kg : KG) (v : String) (maxDepth : Nat) :
    Except String Subgraph :=
  if v ∈ kg.nodeIds then
    let inc := bfsRounds kg maxDepth [v] [v]
    let subNodes := inc.filter (fun u => decide (u ∈ kg.nodeIds))
    let subEdges := kg.edges.filter
      (fun e => decide (e.1 ∈ subNodes) && decide (e.2.1 ∈ subNodes))
    .ok ⟨subNodes, subEdges⟩
  else .error "node not found"

theorem mem_neighborsOf {kg : KG} {v u : String} :
    u ∈ neighborsOf kg v ↔
      ∃ e ∈ kg.edges, (e.1 = v ∧ e.2.1 = u) ∨ (¬ e.1 = v ∧ e.2.1 = v ∧ e.1 = u) := by
  unfold neighborsOf
  rw [List.mem_filterMap]
  constructor
  · rintro ⟨e, he, hcond⟩
    by_cases h1 : e.1 = v
    · rw [if_pos h1] at hcond
      exact ⟨e, he, Or.inl ⟨h1, by simpa using hcond⟩⟩
    · rw [if_neg h1] at hcond
      by_cases h2 : e.2.1 = v
      · rw [if_pos h2] at hcond
        exact ⟨e, he, Or.inr ⟨h1, h2, by simpa using hcond⟩⟩
      · rw [if_neg h2] at hcond
        cases hcond
  · rintro ⟨e, he, ⟨h1, h2⟩ | ⟨h1, h2, h3⟩⟩
    · exact ⟨e, he, by rw [if_pos h1, h2]⟩
    · exact ⟨e, he, by rw [if_neg h1, if_pos h2, h3]⟩

theorem neighborsOf_mem_nodeIds {kg : KG}
    (hwf : ∀ e ∈ kg.edges, e.1 ∈ kg.nodeIds ∧ e.2.1 ∈ kg.nodeIds)
    {v u : String} (hu : u ∈ neighborsOf kg v) : u ∈ kg.nodeIds := by
  obtain ⟨e, he, hc⟩ := mem_neighborsOf.mp hu
  rcases hc with ⟨_, h2⟩ | ⟨_, _, h3⟩
  · exact h2 ▸ (hwf e he).2
  · exact h3 ▸ (hwf e he).1

/-- C8 (amended): querying an absent vertex fails with the NotFound
error; for a present vertex, `maxDepth = 0` yields exactly the single
starting vertex, and its induced edge set consists precisely of the
self-loop at that vertex when one exists — zero edges exactly when the
vertex has no self-loop; `maxDepth = 1` yields the vertex plus its
direct neighbors together with exactly the full graph's edges whose
two endpoints both lie in that set. -/
theorem get_neighbors_subgraph_spec (kg : KG) (v : String)
    (hwf : ∀ e ∈ kg.edges, e.1 ∈ kg.nodeIds ∧ e.2.1 ∈ kg.nodeIds)
    (hv : v ∈ kg.nodeIds) :
    (∀ u, u ∉ kg.nodeIds → ∀ depth, get_neighbors_subgraph kg u depth = .error "node not found")
    ∧ (∃ sg0, get_neighbors_subgraph kg v 0 = .ok sg0
        ∧ sg0.nodes = [v]
        ∧ (∀ e, e ∈ sg0.edges ↔ e ∈ kg.edges ∧ e.1 = v ∧ e.2.1 = v)
        ∧ ((¬ ∃ e ∈ kg.edges, e.1 = v ∧ e.2.1 = v) → sg0.edges = []))
    ∧ (∃ sg1, get_neighbors_subgraph kg v 1 = .ok sg1
        ∧ (∀ u, u ∈ sg1.nodes ↔ u = v ∨ u ∈ neighborsOf kg v)
        ∧ (∀ e, e ∈ sg1.edges ↔ e ∈ kg.edges ∧ e.1 ∈ sg1.nodes ∧ e.2.1 ∈ sg1.nodes)) := by
  refine ⟨?_, ?_, ?_⟩
  · intro u hu depth
    unfold get_neighbors_subgraph
    rw [if_neg hu]
  · have h0 : bfsRounds kg 0 [v] [v] = [v] := rfl
    have hnodes : ([v].filter (fun u => decide (u ∈ kg.nodeIds))) = [v] := by
      simp [hv]
    refine ⟨⟨[v], kg.edges.filter
        (fun e => decide (e.1 ∈ [v]) && decide (e.2.1 ∈ [v]))⟩, ?_, rfl, ?_, ?_⟩
    · unfold get_neighbors_subgraph
      rw [if_pos hv]
      simp only [h0, hnodes]
    · intro e
      rw [List.mem_filter]
      constructor
      · rintro ⟨he, hc⟩
        rw [Bool.and_eq_true] at hc
        refine ⟨he, ?_, ?_⟩
        · have := of_decide_eq_true hc.1
          simpa using this
        · have := of_decide_eq_true hc.2
          simpa using this
      · rintro ⟨he, h1, h2⟩
        refine ⟨he, ?_⟩
        rw [Bool.and_eq_true]
        exact ⟨decide_eq_true (by simp [h1]), decide_eq_true (by simp [h2])⟩
    · intro hno
      rw [List.filter_eq_nil_iff]
      intro e he hc
      rw [Bool.and_eq_true] at hc
      refine hno ⟨e, he, ?_, ?_⟩
      · have := of_decide_eq_true hc.1
        simpa using this
      · have := of_decide_eq_true hc.2
        simpa using this
  · have h1 : bfsRounds kg 1 [v] [v]
        = ([v] ++ ([v].map (neighborsOf kg)).flatten.dedup).dedup := rfl
    have hmem_inc : ∀ u, u ∈ bfsRounds kg 1 [v] [v] ↔ u = v ∨ u ∈ neighborsOf kg v := by
      intro u
      rw [h1, List.mem_dedup]
      simp [List.mem_dedup]
    have hsub : ∀ u, u ∈ (bfsRounds kg 1 [v] [v]).filter
        (fun u => decide (u ∈ kg.nodeIds)) ↔ u = v ∨ u ∈ neighborsOf kg v := by
      intro u
      rw [List.mem_filter]
      constructor
      · rintro ⟨hu, _⟩
        exact (hmem_inc u).mp hu
      · intro hu
        refine ⟨(hmem_inc u).mpr hu, decide_eq_true ?_⟩
        rcases hu with rfl | hu2
        · exact hv
        · exact neighborsOf_mem_nodeIds hwf hu2
    refine ⟨⟨(bfsRounds kg 1 [v] [v]).filter (fun u => decide (u ∈ kg.nodeIds)),
        kg.edges.filter (fun e =>
          decide (e.1 ∈ (bfsRounds kg 1 [v] [v]).filter (fun u => decide (u ∈ kg.nodeIds)))
          && decide (e.2.1 ∈ (bfsRounds kg 1 [v] [v]).filter
              (fun u => decide (u ∈ kg.nodeIds))))⟩, ?_, ?_, ?_⟩
    · unfold get_neighbors_subgraph
      rw [if_pos hv]
    · exact hsub
    · intro e
      rw [List.mem_filter]
      constructor
      · rintro ⟨he, hc⟩
        rw [Bool.and_eq_true] at hc
        exact ⟨he, of_decide_eq_true hc.1, of_decide_eq_true hc.2⟩
      · rintro ⟨he, hc1, hc2⟩
        exact ⟨he, by rw [Bool.and_eq_true]; exact ⟨decide_eq_true hc1, decide_eq_true hc2⟩⟩

/-- The graph built from the duplicate-mention article: a single
vertex `author:a b` with a self-loop. -/
def kgLoop : KG := processArticle KG.empty artDup

/-- C8 counterexample: against the reachable graph `kgLoop`,
`get_neighbors_subgraph("author:a b", 0)` returns the single starting
vertex together with *one* edge — the self-loop — not zero edges. -/
theorem get_neighbors_subgraph_selfloop_counterexample :
    (get_neighbors_subgraph kgLoop "author:a b" 0).toOption.map Subgraph.nodes
      = some ["author:a b"]
    ∧ (get_neighbors_subgraph kgLoop "author:a b" 0).toOption.map
        (fun sg => sg.edges) = some [("author:a b", "author:a b", 1)]
    ∧ (get_neighbors_subgraph kgLoop "author:a b" 0).toOption.map
        (fun sg => sg.edges.length) = some 1 := by
  refine ⟨by decide, by decide, by decide⟩

/-- C8 witness: the amended neighbor-subgraph specification applied to
the triangle graph built from `art1`, centred at `author:a`. -/
theorem get_neighbors_subgraph_spec_witness :
    (∀ e ∈ (buildGraph [art1]).edges,
        e.1 ∈ (buildGraph [art1]).nodeIds ∧ e.2.1 ∈ (buildGraph [art1]).nodeIds)
    ∧ ("author:a" ∈ (buildGraph [art1]).nodeIds)
    ∧ ((∀ u, u ∉ (buildGraph [art1]).nodeIds →
          ∀ depth, get_neighbors_subgraph (buildGraph [art1]) u depth
            = .error "node not found")
      ∧ (∃ sg0, get_neighbors_subgraph (buildGraph [art1]) "author:a" 0 = .ok sg0
          ∧ sg0.nodes = ["author:a"]
          ∧ (∀ e, e ∈ sg0.edges ↔ e ∈ (buildGraph [art1]).edges
              ∧ e.1 = "author:a" ∧ e.2.1 = "author:a")
          ∧ ((¬ ∃ e ∈ (buildGraph [art1]).edges,
                e.1 = "author:a" ∧ e.2.1 = "author:a") → sg0.edges = []))
      ∧ (∃ sg1, get_neighbors_subgraph (buildGraph [art1]) "author:a" 1 = .ok sg1
          ∧ (∀ u, u ∈ sg1.nodes ↔ u = "author:a"
              ∨ u ∈ neighborsOf (buildGraph [art1]) "author:a")
          ∧ (∀ e, e ∈ sg1.edges ↔ e ∈ (buildGraph [art1]).edges
              ∧ e.1 ∈ sg1.nodes ∧ e.2.1 ∈ sg1.nodes))) :=
  ⟨by decide, by decide,
    get_neighbors_subgraph_spec (buildGraph [art1]) "author:a" (by decide) (by decide)⟩

end Spec2Proof
